import Mathlib

/-!
Shallow embedding of the content layer of the `ipfs_gin_example` repository
(`pkg/merkledag/node.go`, `pkg/merkledag/chunker.go`, `pkg/merkledag/dag.go`,
`pkg/storage/badger.go`) together with proofs about the embedded functions.

Modelling conventions:
* Go `[]byte` payloads are `List (Fin 256)`.
* Go `uint64` sizes are `Nat` (no size computation in the claims depends on
  64-bit wraparound, which is unreachable for realistic inputs).
* The CID of a node is `hex(SHA-256(json.Marshal(node)))` in the source.  The
  hex digest is a collision-free function of the serialized bytes, so the
  embedding uses the serialization itself as the CID: an injective, computable
  stand-in for the digest (`nodeCid` below).
* Go errors are an inductive type that keeps the `fmt.Errorf("...: %w", err)`
  wrapping structure, so that `errors.Is` can be modelled faithfully.
-/

set_option maxHeartbeats 1000000
set_option maxRecDepth 10000

namespace IpfsGin

/-- A byte, as stored in Go `[]byte` payloads. -/
abbrev Byte := Fin 256

/-- A byte string. -/
abbrev Bytes := List Byte

/-- `Link` from `pkg/merkledag/node.go`: a link to another node.
`name` is empty for intra-file chunk links and non-empty for directory
entries; `hash` is the CID of the target; `size` the cumulative size. -/
structure Link where
  name : String
  hash : String
  size : Nat
deriving DecidableEq, Repr

/-- `Node` from `pkg/merkledag/node.go`: a Merkle DAG node with optional
content `data` and an ordered list of `links`. -/
structure Node where
  data : Bytes
  links : List Link
deriving DecidableEq, Repr

/-- The empty node `&Node{}`. -/
def emptyNode : Node := ⟨[], []⟩

/-- Go error values, keeping the wrapping structure produced by
`fmt.Errorf("...: %w", cause)` so that `errors.Is` is modelled faithfully.
`badgerKeyNotFound` is the distinguished sentinel `badger.ErrKeyNotFound`. -/
inductive GoError where
  | badgerKeyNotFound : GoError
  | msg : String → GoError
  | wrap : String → GoError → GoError
deriving DecidableEq, Repr, BEq

deriving instance DecidableEq for Except

/-- Go `errors.Is(err, target)`: walk the unwrap chain comparing identities. -/
def errorsIs : GoError → GoError → Bool
  | e@(.wrap _ c), t => e == t || errorsIs c t
  | e, t => e == t

/-! ## The node codec (`json.Marshal` / `json.Unmarshal` on `Node`)

`Node.Cid` and the store values are both `json.Marshal(node)`.  On the struct
`Node { Data []byte "json:data,omitempty"; Links []Link "json:links,omitempty" }`
the Go marshaller emits, deterministically: object keys in struct order,
`[]byte` as padded standard base64, strings with `"`/`\`/`\n`/`\r`/`\t`
escaped directly, other control characters plus `<`, `>`, `&`, U+2028, U+2029
as `\uXXXX` (lowercase hex), and empty fields omitted. -/

/-- The opening brace character of the JSON output. -/
def lbr : Char := Char.ofNat 123

/-- The closing brace character of the JSON output. -/
def rbr : Char := Char.ofNat 125

/-- Decimal digit character. -/
def digitChar (d : Nat) : Char := Char.ofNat (48 + d)

/-- Lowercase hexadecimal digit character (Go's `hex` table). -/
def hexDigChar (d : Nat) : Char :=
  if d < 10 then Char.ofNat (48 + d) else Char.ofNat (87 + d)

/-- Decimal digits, most significant first; structural recursion on a fuel
bound so that the definition evaluates inside the kernel.  The fuel is
consumed once per digit, so any fuel above the argument suffices. -/
def natDigitsAux : Nat → Nat → List Nat
  | 0, _ => []
  | fuel + 1, n => if n < 10 then [n] else natDigitsAux fuel (n / 10) ++ [n % 10]

/-- Decimal digits of a natural number, most significant first. -/
def natDigits (n : Nat) : List Nat := natDigitsAux (n + 1) n

theorem natDigitsAux_fuel (n : Nat) : ∀ fuel : Nat, n < fuel →
    natDigitsAux fuel n = natDigits n := by
  induction n using Nat.strong_induction_on with
  | _ n ih =>
    intro fuel hf
    cases fuel with
    | zero => omega
    | succ f =>
      unfold natDigits
      rw [natDigitsAux, natDigitsAux]
      by_cases h : n < 10
      · simp [h]
      · simp only [if_neg h]
        rw [ih (n / 10) (Nat.div_lt_self (by omega) (by omega)) f (by
          have := Nat.div_lt_self (show 0 < n by omega) (show 1 < 10 by omega)
          omega)]
        rw [ih (n / 10) (Nat.div_lt_self (by omega) (by omega)) n (by
          exact Nat.div_lt_self (by omega) (by omega))]

/-- The recurrence `natDigits` satisfies. -/
theorem natDigits_eq (n : Nat) :
    natDigits n = if n < 10 then [n] else natDigits (n / 10) ++ [n % 10] := by
  conv_lhs => rw [natDigits, natDigitsAux]
  by_cases h : n < 10
  · simp [h]
  · simp only [if_neg h]
    rw [natDigitsAux_fuel (n / 10) n (Nat.div_lt_self (by omega) (by omega))]

/-- Decimal rendering of a `uint64` (Go `strconv.AppendUint`). -/
def natDec (n : Nat) : List Char := (natDigits n).map digitChar

/-- Go `encoding/json` escaping of one character (with the default HTML
escaping): `"`, `\`, `\n`, `\r`, `\t` get two-character escapes; other
control characters and `<`, `>`, `&`, U+2028, U+2029 become `\uXXXX`;
everything else is emitted verbatim. -/
def escapeChar (c : Char) : List Char :=
  if c = '"' then ['\\', '"']
  else if c = '\\' then ['\\', '\\']
  else if c = '\n' then ['\\', 'n']
  else if c = '\r' then ['\\', 'r']
  else if c = '\t' then ['\\', 't']
  else if c.toNat < 32 ∨ c = '<' ∨ c = '>' ∨ c = '&' ∨ c.toNat = 8232 ∨ c.toNat = 8233 then
    ['\\', 'u', hexDigChar (c.toNat / 4096 % 16), hexDigChar (c.toNat / 256 % 16),
      hexDigChar (c.toNat / 16 % 16), hexDigChar (c.toNat % 16)]
  else [c]

/-- JSON escaping of a whole string. -/
def escapeString (s : String) : List Char := (s.data.map escapeChar).flatten

/-- A JSON string literal: quote, escaped body, quote. -/
def marshalString (s : String) : List Char := '"' :: escapeString s ++ ['"']

/-- The standard base64 alphabet. -/
def b64Chars : List Char :=
  ("ABCDEFGHIJKLMNOPQRSTUVWXYZabcdefghijklmnopqrstuvwxyz0123456789+/").data

/-- Character for a 6-bit group. -/
def b64Char (i : Nat) : Char := b64Chars.getD i 'A'

/-- Padded standard base64 of a byte string (Go `base64.StdEncoding`),
as used by `json.Marshal` for `[]byte` values. -/
def encodeB64 : Bytes → List Char
  | [] => []
  | [a] => [b64Char (a.val / 4), b64Char (a.val % 4 * 16), '=', '=']
  | [a, b] => [b64Char (a.val / 4), b64Char (a.val % 4 * 16 + b.val / 16),
      b64Char (b.val % 16 * 4), '=']
  | a :: b :: c :: rest => b64Char (a.val / 4) :: b64Char (a.val % 4 * 16 + b.val / 16) ::
      b64Char (b.val % 16 * 4 + c.val / 64) :: b64Char (c.val % 64) :: encodeB64 rest

/-- Comma-separated concatenation of rendered list elements. -/
def commaSep : List (List Char) → List Char
  | [] => []
  | [x] => x
  | x :: xs => x ++ ',' :: commaSep xs

/-- `json.Marshal` of one `Link` value: `name` omitted when empty, then
`hash` and `size`, keys in struct order. -/
def marshalLink (l : Link) : List Char :=
  lbr :: ((if l.name = "" then [] else ("\"name\":").data ++ marshalString l.name ++ [','])
    ++ ("\"hash\":").data ++ marshalString l.hash
    ++ (",\"size\":").data ++ natDec l.size) ++ [rbr]

/-- `json.Marshal` of a `[]Link` value. -/
def marshalLinks (ls : List Link) : List Char :=
  '[' :: commaSep (ls.map marshalLink) ++ [']']

/-- `json.Marshal` of a `Node` (`Node.MarshalBinary` in `node.go`): both
fields carry `omitempty`, keys in struct order `data`, `links`. -/
def marshalNode (n : Node) : List Char :=
  let dataField := if n.data = [] then [] else ("\"data\":\"").data ++ encodeB64 n.data ++ ['"']
  let linksField := if n.links = [] then [] else ("\"links\":").data ++ marshalLinks n.links
  lbr :: (if n.data = [] then linksField
    else if n.links = [] then dataField
    else dataField ++ ',' :: linksField) ++ [rbr]

/-- `Node.Cid` from `node.go` is `hex.EncodeToString(sha256.Sum256(json.Marshal(n)))`.
The digest is injective on serializations (collision-freeness is assumed
throughout the source), so the embedding uses the serialization itself as the
content ID. -/
def nodeCid (n : Node) : String := String.mk (marshalNode n)

/-! ### The decoder (`Node.UnmarshalBinary`, i.e. `json.Unmarshal` into `Node`)

The source decoder is the general Go JSON parser.  The embedding decodes the
canonical wire form that `marshalNode` emits (fixed key order, no interstitial
whitespace); on that sublanguage it agrees with the source parser, and the
round-trip statements only ever apply the decoder to marshaller output. -/

/-- Value of a hexadecimal digit character. -/
def hexVal (c : Char) : Option Nat :=
  if '0' ≤ c ∧ c ≤ '9' then some (c.toNat - 48)
  else if 'a' ≤ c ∧ c ≤ 'f' then some (c.toNat - 87)
  else if 'A' ≤ c ∧ c ≤ 'F' then some (c.toNat - 55)
  else none

/-- Parse the body of a JSON string (after the opening quote), undoing the
escapes `escapeChar` can produce, up to and including the closing quote.
Returns the decoded characters and the unconsumed tail. -/
def parseStrBody : List Char → Option (List Char × List Char)
  | [] => none
  | c :: rest =>
    if c = '"' then some ([], rest)
    else if c = '\\' then
      match rest with
      | 'u' :: h1 :: h2 :: h3 :: h4 :: rest' => do
        let v1 ← hexVal h1
        let v2 ← hexVal h2
        let v3 ← hexVal h3
        let v4 ← hexVal h4
        let (s, r) ← parseStrBody rest'
        some (Char.ofNat (v1 * 4096 + v2 * 256 + v3 * 16 + v4) :: s, r)
      | e :: rest' =>
        if e = '"' ∨ e = '\\' then
          (parseStrBody rest').map (fun p => (e :: p.1, p.2))
        else if e = 'n' then (parseStrBody rest').map (fun p => ('\n' :: p.1, p.2))
        else if e = 'r' then (parseStrBody rest').map (fun p => ('\r' :: p.1, p.2))
        else if e = 't' then (parseStrBody rest').map (fun p => ('\t' :: p.1, p.2))
        else none
      | [] => none
    else (parseStrBody rest).map (fun p => (c :: p.1, p.2))

/-- Greedily accumulate decimal digits. -/
def parseDigitsAcc (acc : Nat) : List Char → Nat × List Char
  | c :: rest =>
    if c.isDigit then parseDigitsAcc (acc * 10 + (c.toNat - 48)) rest else (acc, c :: rest)
  | [] => (acc, [])

/-- Parse a decimal number (at least one digit). -/
def parseNat : List Char → Option (Nat × List Char)
  | c :: rest => if c.isDigit then some (parseDigitsAcc (c.toNat - 48) rest) else none
  | [] => none

/-- Position of a character in the base64 alphabet. -/
def b64Val (c : Char) : Option Nat :=
  let i := b64Chars.indexOf c
  if i < 64 then some i else none

/-- Decode a padded standard base64 string. -/
def decodeB64 : List Char → Option Bytes
  | [] => some []
  | c1 :: c2 :: c3 :: c4 :: rest =>
    if c3 = '=' then
      if c4 = '=' ∧ rest = [] then do
        let n1 ← b64Val c1
        let n2 ← b64Val c2
        some [⟨(n1 * 4 + n2 / 16) % 256, Nat.mod_lt _ (by omega)⟩]
      else none
    else if c4 = '=' then
      if rest = [] then do
        let n1 ← b64Val c1
        let n2 ← b64Val c2
        let n3 ← b64Val c3
        some [⟨(n1 * 4 + n2 / 16) % 256, Nat.mod_lt _ (by omega)⟩,
          ⟨(n2 % 16 * 16 + n3 / 4) % 256, Nat.mod_lt _ (by omega)⟩]
      else none
    else do
      let n1 ← b64Val c1
      let n2 ← b64Val c2
      let n3 ← b64Val c3
      let n4 ← b64Val c4
      let bs ← decodeB64 rest
      some (⟨(n1 * 4 + n2 / 16) % 256, Nat.mod_lt _ (by omega)⟩ ::
        ⟨(n2 % 16 * 16 + n3 / 4) % 256, Nat.mod_lt _ (by omega)⟩ ::
        ⟨(n3 % 4 * 64 + n4) % 256, Nat.mod_lt _ (by omega)⟩ :: bs)
  | _ => none

/-- Collect characters up to the closing quote of the base64 payload. -/
def takeUntilQuote : List Char → Option (List Char × List Char)
  | [] => none
  | c :: rest =>
    if c = '"' then some ([], rest)
    else (takeUntilQuote rest).map (fun p => (c :: p.1, p.2))

/-- Strip an expected literal from the front of the input. -/
def stripLit : List Char → List Char → Option (List Char)
  | [], l => some l
  | c :: cs, d :: l => if c = d then stripLit cs l else none
  | _ :: _, [] => none

/-- Decode one link object of the canonical wire form. -/
def parseLink (l : List Char) : Option (Link × List Char) := do
  match l with
  | c :: r =>
    if c = lbr then
      match stripLit (("\"name\":\"").data) r with
      | some r1 => do
        let (nm, r2) ← parseStrBody r1
        let r3 ← stripLit ((",\"hash\":\"").data) r2
        let (hs, r4) ← parseStrBody r3
        let r5 ← stripLit ((",\"size\":").data) r4
        let (sz, r6) ← parseNat r5
        match r6 with
        | d :: r7 => if d = rbr then some (⟨String.mk nm, String.mk hs, sz⟩, r7) else none
        | [] => none
      | none => do
        let r1 ← stripLit (("\"hash\":\"").data) r
        let (hs, r2) ← parseStrBody r1
        let r3 ← stripLit ((",\"size\":").data) r2
        let (sz, r4) ← parseNat r3
        match r4 with
        | d :: r5 => if d = rbr then some (⟨"", String.mk hs, sz⟩, r5) else none
        | [] => none
    else none
  | [] => none

/-- Decode the elements of a non-empty link array (after the opening
bracket), separated by commas and ended by the closing bracket.  The fuel
only bounds the recursion; any fuel above the element count suffices. -/
def parseLinksAux : Nat → List Char → Option (List Link × List Char)
  | 0, _ => none
  | fuel + 1, l => do
    let (lk, r) ← parseLink l
    match r with
    | ',' :: r' => do
      let (lks, r'') ← parseLinksAux fuel r'
      some (lk :: lks, r'')
    | ']' :: r' => some ([lk], r')
    | _ => none

/-- Decode a link array of the canonical wire form. -/
def parseLinkArray : List Char → Option (List Link × List Char)
  | '[' :: ']' :: r => some ([], r)
  | '[' :: r => parseLinksAux (r.length + 1) r
  | _ => none

/-- Decode one node object of the canonical wire form. -/
def parseNode (l : List Char) : Option (Node × List Char) := do
  match l with
  | c :: r =>
    if c = lbr then
      match r with
      | d :: r0 =>
        if d = rbr then some (emptyNode, r0)
        else
          match stripLit (("\"data\":\"").data) r with
          | some r1 => do
            let (b64, r2) ← takeUntilQuote r1
            let bs ← decodeB64 b64
            match r2 with
            | e :: r3 =>
              if e = rbr then some (⟨bs, []⟩, r3)
              else if e = ',' then do
                let r4 ← stripLit (("\"links\":").data) r3
                let (lks, r5) ← parseLinkArray r4
                match r5 with
                | f :: r6 => if f = rbr then some (⟨bs, lks⟩, r6) else none
                | [] => none
              else none
            | [] => none
          | none => do
            let r1 ← stripLit (("\"links\":").data) r
            let (lks, r2) ← parseLinkArray r1
            match r2 with
            | f :: r3 => if f = rbr then some (⟨[], lks⟩, r3) else none
            | [] => none
      | [] => none
    else none
  | [] => none

/-- `Node.UnmarshalBinary` on the canonical wire form: decode one node and
require the input to be fully consumed. -/
def unmarshalNode (l : List Char) : Option Node :=
  match parseNode l with
  | some (n, r) => if r = [] then some n else none
  | none => none

/-! ### Round-trip of the node codec -/

/-- `Char.ofNat` inverts `Char.toNat`. -/
theorem charOfNat_toNat (c : Char) : Char.ofNat c.toNat = c := by
  have h : Nat.isValidChar c.toNat := c.valid
  unfold Char.ofNat
  rw [dif_pos h]
  apply Char.ext
  simp [Char.ofNatAux, Char.toNat, UInt32.ofNat]
  apply UInt32.ext
  simp [UInt32.toNat]

theorem hexVal_hexDigChar : ∀ d : Nat, d < 16 → hexVal (hexDigChar d) = some d := by decide

theorem b64Val_b64Char : ∀ i : Nat, i < 64 → b64Val (b64Char i) = some i := by decide

theorem b64Char_ne_pad (i : Nat) : b64Char i ≠ '=' := by
  by_cases h : i < 64
  · revert h
    have h64 : ∀ j : Nat, j < 64 → b64Char j ≠ '=' := by decide
    exact h64 i
  · unfold b64Char
    rw [List.getD_eq_default]
    · decide
    · have hl : b64Chars.length = 64 := rfl
      omega

theorem b64Char_ne_quote (i : Nat) : b64Char i ≠ '"' := by
  by_cases h : i < 64
  · revert h
    have h64 : ∀ j : Nat, j < 64 → b64Char j ≠ '"' := by decide
    exact h64 i
  · unfold b64Char
    rw [List.getD_eq_default]
    · decide
    · have hl : b64Chars.length = 64 := rfl
      omega

/-- Decoding inverts the base64 encoding. -/
theorem decodeB64_encodeB64 (bs : Bytes) : decodeB64 (encodeB64 bs) = some bs := by
  induction bs using encodeB64.induct with
  | case1 => rfl
  | case2 a =>
    have h1 := a.isLt
    simp [encodeB64, decodeB64, b64Val_b64Char _ (by omega : a.val / 4 < 64),
      b64Val_b64Char _ (by omega : a.val % 4 * 16 < 64)]
    apply Fin.ext
    simp
    omega
  | case3 a b =>
    have h1 := a.isLt
    have h2 := b.isLt
    simp [encodeB64, decodeB64, b64Char_ne_pad,
      b64Val_b64Char _ (by omega : a.val / 4 < 64),
      b64Val_b64Char _ (by omega : a.val % 4 * 16 + b.val / 16 < 64),
      b64Val_b64Char _ (by omega : b.val % 16 * 4 < 64)]
    constructor
    · apply Fin.ext
      simp
      omega
    · apply Fin.ext
      simp
      omega
  | case4 a b c rest ih =>
    have h1 := a.isLt
    have h2 := b.isLt
    have h3 := c.isLt
    simp [encodeB64, decodeB64, b64Char_ne_pad,
      b64Val_b64Char _ (by omega : a.val / 4 < 64),
      b64Val_b64Char _ (by omega : a.val % 4 * 16 + b.val / 16 < 64),
      b64Val_b64Char _ (by omega : b.val % 16 * 4 + c.val / 64 < 64),
      b64Val_b64Char _ (by omega : c.val % 64 < 64), ih]
    refine ⟨?_, ?_, ?_⟩ <;> (apply Fin.ext; simp; omega)

/-- Parsing one escaped character off the front of the input produces the
original character and continues with the rest. -/
theorem parseStrBody_escapeChar (c : Char) (l : List Char) :
    parseStrBody (escapeChar c ++ l) = (parseStrBody l).map (fun p => (c :: p.1, p.2)) := by
  unfold escapeChar
  split_ifs with h1 h2 h3 h4 h5 h6
  · subst h1
    simp [parseStrBody]
  · subst h2
    simp [parseStrBody]
  · subst h3
    simp [parseStrBody]
  · subst h4
    simp [parseStrBody]
  · subst h5
    simp [parseStrBody]
  · have hlt : c.toNat < 65536 := by
      rcases h6 with h | h | h | h | h | h
      · omega
      · subst h; decide
      · subst h; decide
      · subst h; decide
      · omega
      · omega
    have harith : c.toNat / 4096 % 16 * 4096 + c.toNat / 256 % 16 * 256 +
        c.toNat / 16 % 16 * 16 + c.toNat % 16 = c.toNat := by omega
    simp [parseStrBody, hexVal_hexDigChar _ (by omega : c.toNat / 4096 % 16 < 16),
      hexVal_hexDigChar _ (by omega : c.toNat / 256 % 16 < 16),
      hexVal_hexDigChar _ (by omega : c.toNat / 16 % 16 < 16),
      hexVal_hexDigChar _ (by omega : c.toNat % 16 < 16), harith, charOfNat_toNat]
    cases parseStrBody l <;> rfl
  · rw [parseStrBody.eq_def]
    simp [h1, h2]

/-- Parsing a string body inverts the JSON escaping. -/
theorem parseStrBody_escape (s : List Char) (rest : List Char) :
    parseStrBody ((s.map escapeChar).flatten ++ '"' :: rest) = some (s, rest) := by
  induction s with
  | nil =>
    simp only [List.map_nil, List.flatten_nil, List.nil_append]
    rw [parseStrBody.eq_def]
    simp
  | cons c s ih =>
    simp only [List.map_cons, List.flatten_cons, List.append_assoc]
    rw [parseStrBody_escapeChar, ih]
    rfl

theorem stripLit_append (lit l : List Char) : stripLit lit (lit ++ l) = some l := by
  induction lit with
  | nil => rfl
  | cons c cs ih => simp [stripLit, ih]

theorem natDigits_lt_ten (n : Nat) : ∀ d ∈ natDigits n, d < 10 := by
  induction n using Nat.strong_induction_on with
  | _ n ih =>
    rw [natDigits_eq]
    split_ifs with h
    · intro d hd
      simp at hd
      omega
    · intro d hd
      simp at hd
      rcases hd with hd | hd
      · exact ih (n / 10) (Nat.div_lt_self (by omega) (by omega)) d hd
      · omega

theorem natDigits_ne_nil (n : Nat) : natDigits n ≠ [] := by
  rw [natDigits_eq]
  split_ifs <;> simp

theorem natDigits_foldl (n : Nat) : ∀ acc : Nat,
    (natDigits n).foldl (fun a d => a * 10 + d) acc = acc * 10 ^ (natDigits n).length + n := by
  induction n using Nat.strong_induction_on with
  | _ n ih =>
    intro acc
    rw [natDigits_eq]
    split_ifs with h
    · simp
    · rw [List.foldl_append, List.length_append,
        ih (n / 10) (Nat.div_lt_self (by omega) (by omega))]
      simp only [List.foldl_cons, List.foldl_nil, List.length_singleton, pow_succ]
      have hmod : n / 10 * 10 + n % 10 = n := by omega
      calc (acc * 10 ^ (natDigits (n / 10)).length + n / 10) * 10 + n % 10
          = acc * (10 ^ (natDigits (n / 10)).length * 10) + (n / 10 * 10 + n % 10) := by ring
        _ = acc * (10 ^ (natDigits (n / 10)).length * 10) + n := by rw [hmod]

theorem digitChar_isDigit : ∀ d : Nat, d < 10 → (digitChar d).isDigit = true := by decide

theorem digitChar_toNat : ∀ d : Nat, d < 10 → (digitChar d).toNat - 48 = d := by decide

theorem parseDigitsAcc_append (ds : List Nat) (hds : ∀ d ∈ ds, d < 10) (acc : Nat)
    (rest : List Char) (hrest : ∀ c, rest.head? = some c → c.isDigit = false) :
    parseDigitsAcc acc (ds.map digitChar ++ rest) =
      (ds.foldl (fun a d => a * 10 + d) acc, rest) := by
  induction ds generalizing acc with
  | nil =>
    simp only [List.map_nil, List.nil_append, List.foldl_nil]
    cases rest with
    | nil => rfl
    | cons c r =>
      have hc := hrest c rfl
      rw [parseDigitsAcc.eq_def]
      simp [hc]
  | cons d ds ih =>
    have hd : d < 10 := hds d (by simp)
    simp only [List.map_cons, List.cons_append]
    rw [parseDigitsAcc.eq_def]
    simp only [digitChar_isDigit d hd, if_true, digitChar_toNat d hd, List.foldl_cons]
    exact ih (fun x hx => hds x (by simp [hx])) _

theorem parseNat_natDec (n : Nat) (rest : List Char)
    (hrest : ∀ c, rest.head? = some c → c.isDigit = false) :
    parseNat (natDec n ++ rest) = some (n, rest) := by
  have hne := natDigits_ne_nil n
  have hlt := natDigits_lt_ten n
  have hfold := natDigits_foldl n 0
  rcases hd : natDigits n with _ | ⟨d, ds⟩
  · exact absurd hd hne
  · rw [hd] at hlt hfold
    unfold natDec
    rw [hd]
    simp only [List.map_cons, List.cons_append]
    have hd10 : d < 10 := hlt d (by simp)
    rw [parseNat.eq_def]
    simp only [digitChar_isDigit d hd10, if_true, digitChar_toNat d hd10]
    rw [parseDigitsAcc_append ds (fun x hx => hlt x (by simp [hx])) d rest hrest]
    rw [List.foldl_cons] at hfold
    simp at hfold
    rw [hfold]

theorem encodeB64_ne_quote (bs : Bytes) : ∀ c ∈ encodeB64 bs, c ≠ '"' := by
  induction bs using encodeB64.induct with
  | case1 => simp [encodeB64]
  | case2 a =>
    intro c hc
    simp only [encodeB64, List.mem_cons, List.not_mem_nil, or_false] at hc
    rcases hc with h | h | h | h <;> subst h
    · exact b64Char_ne_quote _
    · exact b64Char_ne_quote _
    · decide
    · decide
  | case3 a b =>
    intro c hc
    simp only [encodeB64, List.mem_cons, List.not_mem_nil, or_false] at hc
    rcases hc with h | h | h | h <;> subst h
    · exact b64Char_ne_quote _
    · exact b64Char_ne_quote _
    · exact b64Char_ne_quote _
    · decide
  | case4 a b c rest ih =>
    intro x hx
    simp only [encodeB64, List.mem_cons] at hx
    rcases hx with h | h | h | h | h
    · subst h; exact b64Char_ne_quote _
    · subst h; exact b64Char_ne_quote _
    · subst h; exact b64Char_ne_quote _
    · subst h; exact b64Char_ne_quote _
    · exact ih x h

theorem takeUntilQuote_append (l : List Char) (hl : ∀ c ∈ l, c ≠ '"') (rest : List Char) :
    takeUntilQuote (l ++ '"' :: rest) = some (l, rest) := by
  induction l with
  | nil =>
    rw [List.nil_append, takeUntilQuote.eq_def]
    simp
  | cons c cs ih =>
    rw [List.cons_append, takeUntilQuote.eq_def]
    simp only [hl c (by simp), if_false, ite_false]
    rw [ih (fun x hx => hl x (by simp [hx]))]
    rfl

/-- `String.mk` inverts `String.data`. -/
theorem stringMk_data (s : String) : String.mk s.data = s := rfl

/-- Parsing a marshalled string (escaped body plus closing quote) recovers it. -/
theorem parseStrBody_escapeString (s : String) (rest : List Char) :
    parseStrBody (escapeString s ++ '"' :: rest) = some (s.data, rest) :=
  parseStrBody_escape s.data rest

theorem parseNat_natDec_rbr (n : Nat) (rest : List Char) :
    parseNat (natDec n ++ rbr :: rest) = some (n, rbr :: rest) :=
  parseNat_natDec n _ (fun c hc => by simp at hc; subst hc; decide)

theorem parseLink_marshalLink (l : Link) (rest : List Char) :
    parseLink (marshalLink l ++ rest) = some (l, rest) := by
  obtain ⟨nm, hs, sz⟩ := l
  by_cases hnm : nm = ""
  · subst hnm
    have hsplit : marshalLink ⟨"", hs, sz⟩ ++ rest
        = lbr :: (("\"hash\":\"").data ++ (escapeString hs ++ ('"' ::
            ((",\"size\":").data ++ (natDec sz ++ (rbr :: rest)))))) := by
      simp [marshalLink, marshalString, String.data]
    rw [hsplit, parseLink.eq_def]
    simp [stripLit, parseStrBody_escapeString, parseNat_natDec_rbr, stringMk_data]
  · have hsplit : marshalLink ⟨nm, hs, sz⟩ ++ rest
        = lbr :: (("\"name\":\"").data ++ (escapeString nm ++ ('"' ::
            ((",\"hash\":\"").data ++ (escapeString hs ++ ('"' ::
              ((",\"size\":").data ++ (natDec sz ++ (rbr :: rest))))))))) := by
      simp [marshalLink, marshalString, String.data, hnm]
    rw [hsplit, parseLink.eq_def]
    simp [stripLit, parseStrBody_escapeString, parseNat_natDec_rbr, stringMk_data]

theorem parseLinksAux_marshal (ls : List Link) (hne : ls ≠ []) (rest : List Char) :
    ∀ fuel : Nat, ls.length ≤ fuel →
    parseLinksAux fuel (commaSep (ls.map marshalLink) ++ ']' :: rest) = some (ls, rest) := by
  induction ls with
  | nil => exact absurd rfl hne
  | cons l ls ih =>
    intro fuel hfuel
    cases fuel with
    | zero => simp at hfuel
    | succ fuel =>
      cases ls with
      | nil =>
        simp only [List.map_cons, List.map_nil, commaSep, List.nil_append]
        rw [parseLinksAux, parseLink_marshalLink]
        rfl
      | cons l2 ls2 =>
        simp only [List.map_cons, commaSep, List.append_assoc, List.cons_append]
        rw [parseLinksAux, parseLink_marshalLink]
        have hres := ih (by simp) fuel (by simp at hfuel ⊢; omega)
        simp only [List.map_cons] at hres
        simp [hres]

theorem marshalLink_length_pos (l : Link) : 1 ≤ (marshalLink l).length := by
  simp [marshalLink]

theorem commaSep_marshal_length (ls : List Link) :
    ls.length ≤ (commaSep (ls.map marshalLink)).length := by
  induction ls with
  | nil => simp [commaSep]
  | cons l ls ih =>
    cases ls with
    | nil =>
      simp only [List.map_cons, List.map_nil, commaSep, List.length_cons, List.length_nil]
      have := marshalLink_length_pos l
      omega
    | cons l2 ls2 =>
      simp only [List.map_cons, commaSep, List.length_append, List.length_cons] at ih ⊢
      have := marshalLink_length_pos l
      omega

theorem parseLinkArray_cons (t : List Char) :
    parseLinkArray ('[' :: lbr :: t) = parseLinksAux ((lbr :: t).length + 1) (lbr :: t) := rfl

theorem parseLinkArray_marshalLinks (ls : List Link) (rest : List Char) :
    parseLinkArray (marshalLinks ls ++ rest) = some (ls, rest) := by
  cases ls with
  | nil => rfl
  | cons l ls =>
    obtain ⟨t0, ht0⟩ : ∃ t0, marshalLink l = lbr :: t0 := ⟨_, rfl⟩
    obtain ⟨t, ht⟩ : ∃ t, commaSep ((l :: ls).map marshalLink) ++ ']' :: rest = lbr :: t := by
      cases ls with
      | nil => exact ⟨t0 ++ ']' :: rest, by simp [commaSep, ht0]⟩
      | cons l2 ls2 =>
        exact ⟨(t0 ++ ',' :: commaSep (marshalLink l2 :: ls2.map marshalLink)) ++ ']' :: rest,
          by simp [commaSep, ht0]⟩
    have hstep : marshalLinks (l :: ls) ++ rest = '[' :: lbr :: t := by
      rw [marshalLinks]
      simp only [List.cons_append, List.append_assoc, List.singleton_append, List.nil_append]
      rw [ht]
    rw [hstep, parseLinkArray_cons, ← ht]
    apply parseLinksAux_marshal (l :: ls) (by simp) rest
    have h1 := commaSep_marshal_length (l :: ls)
    simp only [List.length_append, List.length_cons] at h1 ⊢
    omega

theorem takeUntilQuote_encodeB64 (bs : Bytes) (rest : List Char) :
    takeUntilQuote (encodeB64 bs ++ '"' :: rest) = some (encodeB64 bs, rest) :=
  takeUntilQuote_append _ (encodeB64_ne_quote bs) _

theorem parseNode_marshalNode (n : Node) (rest : List Char) :
    parseNode (marshalNode n ++ rest) = some (n, rest) := by
  obtain ⟨bs, links⟩ := n
  have hq : ('"' : Char) ≠ rbr := by decide
  have hc : (',' : Char) ≠ rbr := by decide
  by_cases hd : bs = [] <;> by_cases hl : links = []
  · subst hd
    subst hl
    rfl
  · subst hd
    have hsplit : marshalNode ⟨[], links⟩ ++ rest
        = lbr :: ('"' :: ("links\":").data ++ (marshalLinks links ++ rbr :: rest)) := by
      simp [marshalNode, String.data, hl]
    rw [hsplit, parseNode.eq_def]
    simp [stripLit, hq, parseLinkArray_marshalLinks, emptyNode]
  · subst hl
    have hsplit : marshalNode ⟨bs, []⟩ ++ rest
        = lbr :: ('"' :: ("data\":\"").data ++ (encodeB64 bs ++ '"' :: rbr :: rest)) := by
      simp [marshalNode, String.data, hd]
    rw [hsplit, parseNode.eq_def]
    simp [stripLit, hq, takeUntilQuote_encodeB64, decodeB64_encodeB64, emptyNode]
  · have hsplit : marshalNode ⟨bs, links⟩ ++ rest
        = lbr :: ('"' :: ("data\":\"").data ++ (encodeB64 bs ++ '"' :: ',' ::
            (("\"links\":").data ++ (marshalLinks links ++ rbr :: rest)))) := by
      simp [marshalNode, String.data, hd, hl]
    rw [hsplit, parseNode.eq_def]
    simp [stripLit, hq, hc, takeUntilQuote_encodeB64, decodeB64_encodeB64,
      parseLinkArray_marshalLinks, emptyNode]

/-- `Node.UnmarshalBinary` inverts `Node.MarshalBinary`. -/
theorem unmarshalNode_marshalNode (n : Node) : unmarshalNode (marshalNode n) = some n := by
  have h := parseNode_marshalNode n []
  rw [List.append_nil] at h
  unfold unmarshalNode
  rw [h]
  rfl

/-- The serialization is injective, hence so is the CID function: the
embedding's counterpart of the collision-freeness of hex-SHA-256. -/
theorem marshalNode_injective {a b : Node} (h : marshalNode a = marshalNode b) : a = b := by
  have ha := unmarshalNode_marshalNode a
  have hb := unmarshalNode_marshalNode b
  rw [h, hb] at ha
  exact (Option.some.injEq _ _).mp ha |>.symm

theorem nodeCid_injective {a b : Node} (h : nodeCid a = nodeCid b) : a = b := by
  apply marshalNode_injective
  have := congrArg String.data h
  simpa [nodeCid] using this

/-! ## The block store (`pkg/storage/badger.go`) and `DAGBuilder` plumbing

The store keys are CID strings and the values node serializations.  `GetNode`
always unmarshals what `AddNode` marshalled (round-trip proved above), so the
embedding stores the decoded nodes directly. -/

@[simp] theorem exceptBind_ok {ε α β : Type} (a : α) (f : α → Except ε β) :
    (Except.ok a : Except ε α) >>= f = f a := rfl

@[simp] theorem exceptBind_error {ε α β : Type} (e : ε) (f : α → Except ε β) :
    (Except.error e : Except ε α) >>= f = .error e := rfl

/-- Store contents: an association list, most recent binding first
(`txn.Set` overwrites). -/
abbrev Store := List (String × Node)

/-- Raw key lookup. -/
def storeFind (s : Store) (k : String) : Option Node :=
  (s.find? (fun p => p.1 == k)).map (fun p => p.2)

/-- `BadgerStore.Get`: a missing key is reported as the fresh error value
`errors.New("block not found")` — NOT the sentinel `badger.ErrKeyNotFound`,
which `badger.go` swallows when translating the miss. -/
def storeGet (s : Store) (k : String) : Except GoError Node :=
  match storeFind s k with
  | some n => .ok n
  | none => .error (.msg ("block not found"))

/-- `BadgerStore.Put` (`txn.Set`): bind the key, shadowing earlier bindings. -/
def storePut (s : Store) (k : String) (n : Node) : Store := (k, n) :: s

/-- `DAGBuilder.AddNode`: marshal the node, store it under its CID, return the
CID.  The store put cannot fail in the embedding. -/
def addNode (s : Store) (n : Node) : Store × String :=
  (storePut s (nodeCid n) n, nodeCid n)

/-- `DAGBuilder.GetNode`: fetch by CID, wrapping fetch errors with
`fmt.Errorf("failed to get node ...: %w", err)`. -/
def getNode (s : Store) (cid : String) : Except GoError Node :=
  match storeGet s cid with
  | .ok n => .ok n
  | .error e => .error (.wrap ("failed to get node from store") e)

/-- A well-formed store binds every key to the node whose CID it is — the
invariant maintained by writing only through `AddNode`. -/
def WFStore (s : Store) : Prop := ∀ p ∈ s, p.1 = nodeCid p.2

instance (s : Store) : Decidable (WFStore s) := by
  unfold WFStore
  infer_instance

/-! ## Chunker (`pkg/merkledag/chunker.go`) -/

/-- `Chunker.Chunk` on an in-memory byte string: consecutive chunks of
`chunkSize` bytes, the final one possibly short; empty input yields no
chunks.  Each chunk becomes a leaf `Node` carrying only data.  (The source
loops on `r.Read`; a chunk size of zero would read nothing forever and is
unreachable — the configured chunk size is positive.) -/
def chunkAux : Nat → Nat → Bytes → List Node
  | 0, _, _ => []
  | fuel + 1, k, b =>
    match b with
    | [] => []
    | b0 :: bs =>
      match k with
      | 0 => []
      | k + 1 => ⟨(b0 :: bs).take (k + 1), []⟩ :: chunkAux fuel (k + 1) ((b0 :: bs).drop (k + 1))

/-- `Chunker.Chunk` proper; the fuel (consumed once per chunk) is the input
length, which always suffices. -/
def chunk (k : Nat) (b : Bytes) : List Node := chunkAux b.length k b

theorem chunkAux_irrel : ∀ (n : Nat) (b : Bytes), b.length ≤ n → ∀ fuel fuel' k,
    b.length ≤ fuel → b.length ≤ fuel' → chunkAux fuel k b = chunkAux fuel' k b := by
  intro n
  induction n with
  | zero =>
    intro b hb fuel fuel' k h1 h2
    have : b = [] := List.eq_nil_of_length_eq_zero (by omega)
    subst this
    cases fuel <;> cases fuel' <;> rfl
  | succ n ihn =>
    intro b hb fuel fuel' k h1 h2
    cases b with
    | nil => cases fuel <;> cases fuel' <;> rfl
    | cons b0 bs =>
      simp only [List.length_cons] at hb h1 h2
      cases fuel with
      | zero => omega
      | succ f =>
        cases fuel' with
        | zero => omega
        | succ f' =>
          cases k with
          | zero => rfl
          | succ k =>
            simp only [chunkAux]
            congr 1
            exact ihn _ (by simp only [List.length_drop, List.length_cons]; omega) f f' (k + 1)
              (by simp only [List.length_drop, List.length_cons]; omega)
              (by simp only [List.length_drop, List.length_cons]; omega)

theorem chunk_nil (k : Nat) : chunk k [] = [] := rfl

theorem chunk_zero (b : Bytes) : chunk 0 b = [] := by
  cases b <;> rfl

/-- The recurrence `chunk` satisfies on non-empty input and positive size. -/
theorem chunk_cons (k : Nat) (b0 : Byte) (bs : Bytes) :
    chunk (k + 1) (b0 :: bs)
      = ⟨(b0 :: bs).take (k + 1), []⟩ :: chunk (k + 1) ((b0 :: bs).drop (k + 1)) := by
  show chunkAux (bs.length + 1) (k + 1) (b0 :: bs) = _
  simp only [chunkAux]
  congr 1
  exact chunkAux_irrel bs.length _ (by simp only [List.length_drop, List.length_cons]; omega)
    bs.length _ (k + 1) (by simp only [List.length_drop, List.length_cons]; omega)
    (by simp only [List.length_drop, List.length_cons]; omega)

/-! ## DAG builder (`pkg/merkledag/dag.go`) -/

/-- `CalculateNodeSize`: data length for data-carrying nodes, otherwise the
sum of link sizes (trusting them, as the source comments explain). -/
def calculateNodeSize (n : Node) : Nat :=
  if n.data.length > 0 then n.data.length
  else n.links.foldl (fun acc l => acc + l.size) 0

/-- Second pass of the `BuildDAGFromLeaves` group body: re-fetch every child
of the freshly stored placeholder parent and fill in its link size. -/
def fixLinks (s : Store) : List Link → Except GoError (List Link)
  | [] => .ok []
  | l :: ls =>
    match getNode s l.hash with
    | .error e => .error (.wrap ("failed to get child node for size calculation") e)
    | .ok child => do
      let rest ← fixLinks s ls
      .ok (⟨l.name, l.hash, calculateNodeSize child⟩ :: rest)

/-- One group of at most 174 children in `BuildDAGFromLeaves`: store the
children, store a placeholder parent whose link sizes are zero, then store an
updated parent with computed sizes.  Returns the updated parent. -/
def processGroup (s : Store) (group : List Node) : Except GoError (Store × Node) :=
  let first := group.foldl
    (fun (acc : Store × List Link) child =>
      ((addNode acc.1 child).1, acc.2 ++ [⟨"", (addNode acc.1 child).2, 0⟩]))
    (s, [])
  let parent0 : Node := ⟨[], first.2⟩
  let s2 := (addNode first.1 parent0).1
  match fixLinks s2 first.2 with
  | .error e => .error e
  | .ok fixed =>
    let updated : Node := ⟨[], fixed⟩
    .ok ((addNode s2 updated).1, updated)

/-- One level of `BuildDAGFromLeaves`: group the current nodes into runs of
at most 174 (the fanout) and build a parent for each. -/
def buildGroupsAux : Nat → Store → List Node → Except GoError (Store × List Node)
  | 0, s, nodes =>
    match nodes with
    | [] => .ok (s, [])
    | _ :: _ => .error (.msg ("out of fuel"))
  | fuel + 1, s, nodes =>
    match nodes with
    | [] => .ok (s, [])
    | x :: xs => do
      let (s1, parent) ← processGroup s ((x :: xs).take 174)
      let (s2, rest) ← buildGroupsAux fuel s1 ((x :: xs).drop 174)
      .ok (s2, parent :: rest)

/-- One level of `BuildDAGFromLeaves`; the fuel (consumed once per group) is
the node count, which always suffices. -/
def buildGroups (s : Store) (nodes : List Node) : Except GoError (Store × List Node) :=
  buildGroupsAux nodes.length s nodes

theorem buildGroupsAux_irrel : ∀ (n : Nat) (ns : List Node), ns.length ≤ n →
    ∀ fuel fuel' s, ns.length ≤ fuel → ns.length ≤ fuel' →
    buildGroupsAux fuel s ns = buildGroupsAux fuel' s ns := by
  intro n
  induction n with
  | zero =>
    intro ns hb fuel fuel' s h1 h2
    have : ns = [] := List.eq_nil_of_length_eq_zero (by omega)
    subst this
    cases fuel <;> cases fuel' <;> rfl
  | succ n ihn =>
    intro ns hb fuel fuel' s h1 h2
    cases ns with
    | nil => cases fuel <;> cases fuel' <;> rfl
    | cons x xs =>
      simp only [List.length_cons] at hb h1 h2
      cases fuel with
      | zero => omega
      | succ f =>
        cases fuel' with
        | zero => omega
        | succ f' =>
          simp only [buildGroupsAux]
          cases processGroup s ((x :: xs).take 174) with
          | error e => rfl
          | ok p =>
            simp only [exceptBind_ok]
            rw [ihn ((x :: xs).drop 174)
              (by simp only [List.length_drop, List.length_cons]; omega) f f' p.1
              (by simp only [List.length_drop, List.length_cons]; omega)
              (by simp only [List.length_drop, List.length_cons]; omega)]

/-- The recurrence `buildGroups` satisfies. -/
theorem buildGroups_cons (s : Store) (x : Node) (xs : List Node) :
    buildGroups s (x :: xs) = (do
      let (s1, parent) ← processGroup s ((x :: xs).take 174)
      let (s2, rest) ← buildGroups s1 ((x :: xs).drop 174)
      .ok (s2, parent :: rest)) := by
  show buildGroupsAux (xs.length + 1) s (x :: xs) = _
  simp only [buildGroupsAux]
  cases processGroup s ((x :: xs).take 174) with
  | error e => rfl
  | ok p =>
    simp only [exceptBind_ok]
    rw [buildGroupsAux_irrel xs.length ((x :: xs).drop 174)
      (by simp only [List.length_drop, List.length_cons]; omega)
      xs.length (((x :: xs).drop 174).length) p.1
      (by simp only [List.length_drop, List.length_cons]; omega)
      (by simp only [List.length_drop, List.length_cons]; omega)]
    rfl

theorem buildGroups_nil (s : Store) : buildGroups s [] = .ok (s, []) := rfl

theorem buildGroups_length (ns : List Node) : ∀ (s s' : Store) (ps : List Node),
    buildGroups s ns = .ok (s', ps) → ps.length = (ns.length + 173) / 174 := by
  suffices H : ∀ (n : Nat) (ns : List Node), ns.length ≤ n → ∀ (s s' : Store) (ps : List Node),
      buildGroups s ns = .ok (s', ps) → ps.length = (ns.length + 173) / 174 from
    H ns.length ns le_rfl
  intro n
  induction n with
  | zero =>
    intro ns hn s s' ps h
    have : ns = [] := List.eq_nil_of_length_eq_zero (by omega)
    subst this
    rw [buildGroups_nil] at h
    cases h
    simp
  | succ n ihn =>
    intro ns hn s s' ps h
    cases ns with
    | nil =>
      rw [buildGroups_nil] at h
      cases h
      simp
    | cons x xs =>
      rw [buildGroups_cons] at h
      cases hp : processGroup s ((x :: xs).take 174) with
      | error e => rw [hp] at h; simp at h
      | ok p =>
        rw [hp] at h
        simp only [exceptBind_ok] at h
        cases hg : buildGroups p.1 ((x :: xs).drop 174) with
        | error e => rw [hg] at h; simp at h
        | ok q =>
          rw [hg] at h
          simp only [exceptBind_ok, Except.ok.injEq, Prod.mk.injEq] at h
          have hrest := ihn ((x :: xs).drop 174)
            (by simp only [List.length_drop, List.length_cons] at hn ⊢; omega) p.1 q.1 q.2 hg
          rw [← h.2]
          simp only [List.length_cons, List.length_drop] at hrest ⊢
          omega

def buildLoopAux : Nat → Store → List Node → Except GoError (Store × List Node)
  | 0, _, _ => .error (.msg ("out of fuel"))
  | fuel + 1, s, nodes =>
    if 1 < nodes.length then
      match buildGroups s nodes with
      | .error e => .error e
      | .ok (s', next) => buildLoopAux fuel s' next
    else .ok (s, nodes)

/-- The bottom-up loop of `BuildDAGFromLeaves`
(`for len(currentLevelNodes) > 1`); each level is strictly shorter than the
one below, so fuel `length + 1` always suffices. -/
def buildLoop (s : Store) (nodes : List Node) : Except GoError (Store × List Node) :=
  buildLoopAux (nodes.length + 1) s nodes

theorem buildLoopAux_irrel : ∀ (n : Nat) (ns : List Node), ns.length ≤ n →
    ∀ fuel fuel' s, ns.length < fuel → ns.length < fuel' →
    buildLoopAux fuel s ns = buildLoopAux fuel' s ns := by
  intro n
  induction n with
  | zero =>
    intro ns hb fuel fuel' s h1 h2
    have : ns = [] := List.eq_nil_of_length_eq_zero (by omega)
    subst this
    cases fuel with
    | zero => omega
    | succ f =>
      cases fuel' with
      | zero => omega
      | succ f' => rfl
  | succ n ihn =>
    intro ns hb fuel fuel' s h1 h2
    cases fuel with
    | zero => omega
    | succ f =>
      cases fuel' with
      | zero => omega
      | succ f' =>
        simp only [buildLoopAux]
        by_cases hlen : 1 < ns.length
        · simp only [if_pos hlen]
          cases hg : buildGroups s ns with
          | error e => rfl
          | ok p =>
            have hnext := buildGroups_length ns s p.1 p.2 (by rw [hg])
            have hlt : p.2.length < ns.length := by omega
            exact ihn p.2 (by omega) f f' p.1 (by omega) (by omega)
        · simp only [if_neg hlen]

/-- The recurrence `buildLoop` satisfies. -/
theorem buildLoop_eq (s : Store) (nodes : List Node) :
    buildLoop s nodes = if 1 < nodes.length then
      (match buildGroups s nodes with
      | .error e => .error e
      | .ok (s', next) => buildLoop s' next)
    else .ok (s, nodes) := by
  show buildLoopAux (nodes.length + 1) s nodes = _
  simp only [buildLoopAux]
  by_cases hlen : 1 < nodes.length
  · simp only [if_pos hlen]
    cases hg : buildGroups s nodes with
    | error e => rfl
    | ok p =>
      have hnext := buildGroups_length nodes s p.1 p.2 (by rw [hg])
      have hlt : p.2.length < nodes.length := by omega
      exact buildLoopAux_irrel p.2.length p.2 le_rfl nodes.length (p.2.length + 1) p.1
        (by omega) (by omega)
  · simp only [if_neg hlen]

/-- `BuildDAGFromLeaves`: build a file DAG bottom-up from the leaf chunks and
return the root CID and cumulative size. -/
def buildDAGFromLeaves (s : Store) (leaves : List Node) :
    Except GoError (Store × String × Nat) :=
  if leaves = [] then
    let (s', c) := addNode s emptyNode
    .ok (s', c, 0)
  else
    match buildLoop s leaves with
    | .error e => .error e
    | .ok (s1, level) =>
      match level with
      | [root] =>
        let (s2, rc) := addNode s1 root
        .ok (s2, rc, calculateNodeSize root)
      | _ => .error (.msg ("failed to build single root node"))

/-- `BuildDirectoryDAG`.  The source iterates a Go map
(`for name, item := range items`); iteration order of a Go map is
unspecified and randomised between runs, so the embedding takes the
enumeration observed by the loop as an explicit list of
`(name, (cid, size))` triples. -/
def buildDirectoryDAG (s : Store) (items : List (String × String × Nat)) :
    Except GoError (Store × String × Nat) :=
  let dirNode : Node := ⟨[], items.map (fun it => ⟨it.1, it.2.1, it.2.2⟩)⟩
  let total := items.foldl (fun acc it => acc + it.2.2) 0
  let (s', c) := addNode s dirNode
  .ok (s', c, total)

/-! ## Path walker, file reader, directory listing, path mutator (`dag.go`) -/

/-- `strings.Split(s, "/")` on the character list: always returns at least
one (possibly empty) group; adjacent separators yield empty groups. -/
def splitOnSlash : List Char → List (List Char)
  | [] => [[]]
  | c :: rest =>
    if c = '/' then [] :: splitOnSlash rest
    else
      match splitOnSlash rest with
      | [] => [[c]]
      | g :: gs => (c :: g) :: gs

/-- `splitPath`: trim one leading slash (`strings.TrimPrefix`) and one
trailing slash (`strings.TrimSuffix`), then split on `/`.  `"/"` and `""`
(and a path that trims to empty) have no components. -/
def splitPath (path : String) : List String :=
  if path = "/" ∨ path = "" then []
  else
    let p1 := match path.data with
      | '/' :: rest => rest
      | l => l
    let p2 := match p1.getLast? with
      | some '/' => p1.dropLast
      | _ => p1
    if p2 = [] then [] else (splitOnSlash p2).map String.mk

/-- The two failure modes of `ResolvePath`: a node missing from the store
(with the wrapped store error) and a named component missing from a node's
links (the source message names the component and the current node). -/
inductive ResolveErr where
  | notFound : String → GoError → ResolveErr
  | pathNotFound : String → String → ResolveErr
deriving DecidableEq, Repr

/-- The loop of `ResolvePath`: walk the components in order, skipping empty
ones, following the first link whose name matches. -/
def resolveComponents (s : Store) : List String → String → Except ResolveErr String
  | [], cur => .ok cur
  | comp :: rest, cur =>
    if comp = "" then resolveComponents s rest cur
    else
      match getNode s cur with
      | .error e => .error (.notFound cur e)
      | .ok node =>
        match node.links.find? (fun l => l.name == comp) with
        | some l => resolveComponents s rest l.hash
        | none => .error (.pathNotFound comp cur)

/-- `ResolvePath`: resolve a slash-separated path from a root CID. -/
def resolvePath (s : Store) (rootCid : String) (path : String) : Except ResolveErr String :=
  let comps := splitPath path
  if comps = [] ∧ (path = "/" ∨ path = "") then .ok rootCid
  else resolveComponents s comps rootCid

/-- The chunk-concatenation loop of `GetFileData`: every linked node must be
a plain data chunk (non-empty data, no links); otherwise the errors of the
source, depending on whether the offending link is named. -/
def readChunks (s : Store) : List Link → Except GoError Bytes
  | [] => .ok []
  | l :: ls =>
    match getNode s l.hash with
    | .error e => .error (.wrap ("failed to get chunk node") e)
    | .ok chunkNode =>
      if chunkNode.data = [] ∨ chunkNode.links ≠ [] then
        if l.name ≠ "" then .error (.msg ("linked node is not a data chunk for file"))
        else .error (.msg ("linked node is not a data chunk (unexpected structure)"))
      else do
        let rest ← readChunks s ls
        .ok (chunkNode.data ++ rest)

/-- `GetFileData`: return the data of a single-chunk node, empty bytes for
the empty node, and otherwise concatenate the directly linked chunks.  The
reader does not recurse: links to inner (link-carrying) nodes are errors. -/
def getFileData (s : Store) (fileNodeCid : String) : Except GoError Bytes :=
  match getNode s fileNodeCid with
  | .error e => .error (.wrap ("failed to get file node") e)
  | .ok fileNode =>
    if fileNode.data ≠ [] ∧ fileNode.links = [] then .ok fileNode.data
    else if fileNode.links = [] ∧ fileNode.data = [] then .ok []
    else readChunks s fileNode.links

/-- `ListDirectory`: a node with links whose first link is named lists its
links; the empty node lists nothing; every other shape is not a directory. -/
def listDirectory (s : Store) (dirNodeCid : String) : Except GoError (List Link) :=
  match getNode s dirNodeCid with
  | .error e => .error (.wrap ("failed to get directory node") e)
  | .ok dirNode =>
    if dirNode.links ≠ [] ∧ (dirNode.links.headD ⟨"", "", 0⟩).name ≠ "" then .ok dirNode.links
    else if dirNode.links = [] ∧ dirNode.data = [] then .ok []
    else .error (.msg ("node is not a directory node"))

/-- The link rewrite both branches of `updateDirRecursive` perform: replace
every link named `name` by `newLink`, or append `newLink` when none matches. -/
def replaceOrAppend (links : List Link) (name : String) (newLink : Link) : List Link :=
  if links.any (fun l => l.name == name) then
    links.map (fun l => if l.name = name then newLink else l)
  else links ++ [newLink]

/-- `updateDirRecursive`: rebuild the spine of directory nodes from
`currentDirCid` down the remaining parent path, linking
`(itemName, targetCid, targetSize)` at the bottom, and return the new CID of
the current level.  In the base case a missing current node is replaced by
the empty node only when the fetch error is `badger.ErrKeyNotFound`
(`errors.Is`); in the recursive case such a miss is an internal error. -/
def updateDirRecursive (s : Store) (currentDirCid : String) :
    List String → (itemName : String) → (targetCid : String) → (targetSize : Nat) →
    Except GoError (Store × String)
  | [], itemName, targetCid, targetSize =>
    let fetched : Except GoError Node :=
      match getNode s currentDirCid with
      | .error e =>
        if errorsIs e .badgerKeyNotFound then .ok emptyNode
        else .error (.wrap ("failed to get parent directory node") e)
      | .ok n => .ok n
    match fetched with
    | .error e => .error e
    | .ok parentDirNode =>
      let newParentDirNode : Node :=
        ⟨[], replaceOrAppend parentDirNode.links itemName ⟨itemName, targetCid, targetSize⟩⟩
      let (s', c') := addNode s newParentDirNode
      .ok (s', c')
  | currentComponentName :: restOfPathComponents, itemName, targetCid, targetSize =>
    match getNode s currentDirCid with
    | .error e =>
      if errorsIs e .badgerKeyNotFound then
        .error (.msg ("internal error: current directory node not found during recursive update"))
      else .error (.wrap ("failed to get current directory node during recursive update") e)
    | .ok currentDirNode =>
      let next : Store × String :=
        match currentDirNode.links.find? (fun l => l.name == currentComponentName) with
        | some link => (s, link.hash)
        | none => addNode s emptyNode
      match updateDirRecursive next.1 next.2 restOfPathComponents itemName targetCid targetSize with
      | .error e => .error (.wrap ("recursive update failed") e)
      | .ok (s1, newNextDirCid) =>
        match getNode s1 newNextDirCid with
        | .error e => .error (.wrap ("failed to get new next directory node after recursive update") e)
        | .ok newNextDirNode =>
          let newNextDirSize := calculateNodeSize newNextDirNode
          let newCurrentDirNode : Node :=
            ⟨[], replaceOrAppend currentDirNode.links currentComponentName
              ⟨currentComponentName, newNextDirCid, newNextDirSize⟩⟩
          let (s2, c2) := addNode s1 newCurrentDirNode
          .ok (s2, c2)

/-- `PutNodeAtPath`: link `targetCid` at `path` under `currentRootCid`,
rebuilding the spine, and return the new root CID. -/
def putNodeAtPath (s : Store) (currentRootCid : String) (path : String)
    (targetCid : String) (targetSize : Nat) : Except GoError (Store × String) :=
  if path = "" ∨ path = "/" then .error (.msg ("cannot put content at the root path"))
  else
    let pathComponents := splitPath path
    if pathComponents = [] then .error (.msg ("invalid path"))
    else
      let itemName := pathComponents.getLast!
      let parentPathComponents := pathComponents.dropLast
      match updateDirRecursive s currentRootCid parentPathComponents itemName targetCid targetSize with
      | .error e => .error (.wrap ("failed to update DAG path") e)
      | .ok (s', newRootCid) => .ok (s', newRootCid)

/-- `GetNodeSize`: fetch a node and compute its cumulative size. -/
def getNodeSize (s : Store) (cid : String) : Except GoError Nat :=
  match getNode s cid with
  | .error e => .error e
  | .ok n => .ok (calculateNodeSize n)

/-! ## Store lemmas -/

/-- Store extension: every binding visible before stays visible (with the
same value).  Content addressing makes all the builders' writes extensions. -/
def StoreLe (s s' : Store) : Prop :=
  ∀ k n, storeFind s k = some n → storeFind s' k = some n

theorem StoreLe.rfl {s : Store} : StoreLe s s := fun _ _ h => h

theorem StoreLe.trans {s1 s2 s3 : Store} (h12 : StoreLe s1 s2) (h23 : StoreLe s2 s3) :
    StoreLe s1 s3 := fun k n h => h23 k n (h12 k n h)

theorem storeFind_put_self (s : Store) (n : Node) :
    storeFind (storePut s (nodeCid n) n) (nodeCid n) = some n := by
  simp [storeFind, storePut, List.find?_cons]

theorem storeFind_WF {s : Store} (hwf : WFStore s) {k : String} {n : Node}
    (h : storeFind s k = some n) : k = nodeCid n := by
  unfold storeFind at h
  cases hf : s.find? (fun p => p.1 == k) with
  | none => rw [hf] at h; simp at h
  | some p =>
    rw [hf] at h
    simp at h
    have hp := List.find?_some hf
    have hm := List.mem_of_find?_eq_some hf
    have hwfp := hwf p hm
    simp at hp
    rw [← hp, hwfp, h]

theorem WFStore_put {s : Store} (hwf : WFStore s) (n : Node) :
    WFStore (storePut s (nodeCid n) n) := by
  intro p hp
  rcases List.mem_cons.mp hp with h | h
  · rw [h]
  · exact hwf p h

theorem StoreLe.put {s : Store} (hwf : WFStore s) (m : Node) :
    StoreLe s (storePut s (nodeCid m) m) := by
  intro k v h
  unfold storeFind storePut
  rw [List.find?_cons]
  by_cases hk : nodeCid m = k
  · have hv : k = nodeCid v := storeFind_WF hwf h
    have : v = m := nodeCid_injective (by rw [← hv, hk])
    subst this
    simp [hk]
  · have : ((nodeCid m, m).1 == k) = false := by simp [hk]
    rw [this]
    exact h

theorem getNode_ok_iff {s : Store} {k : String} {n : Node} :
    getNode s k = .ok n ↔ storeFind s k = some n := by
  unfold getNode storeGet
  cases storeFind s k <;> simp

theorem getNode_none {s : Store} {k : String} (h : storeFind s k = none) :
    getNode s k
      = .error (.wrap ("failed to get node from store") (.msg ("block not found"))) := by
  simp [getNode, storeGet, h]

/-- The error a store miss produces never matches the badger sentinel: the
treat-as-empty branch of `updateDirRecursive` is unreachable. -/
theorem errorsIs_blockNotFound :
    errorsIs (.wrap ("failed to get node from store") (.msg ("block not found")))
      .badgerKeyNotFound = false := by decide

/-! ## `replaceOrAppend` lemmas -/

theorem replaceOrAppend_find_self (links : List Link) (name : String) (lnk : Link)
    (h : lnk.name = name) :
    (replaceOrAppend links name lnk).find? (fun l => l.name == name) = some lnk := by
  unfold replaceOrAppend
  split_ifs with hany
  · induction links with
    | nil => simp at hany
    | cons a as ih =>
      simp only [List.map_cons, List.find?_cons]
      by_cases ha : a.name = name
      · simp [ha, h]
      · simp only [if_neg ha]
        have : (a.name == name) = false := by simp [ha]
        simp only [this]
        apply ih
        simp only [List.any_cons, this, Bool.false_or] at hany
        exact hany
  · rw [List.find?_append]
    have hnone : links.find? (fun l => l.name == name) = none := by
      rw [List.find?_eq_none]
      intro a ha
      simp only [List.any_eq_true] at hany
      push_neg at hany
      exact hany a ha
    rw [hnone]
    simp [h]

theorem find_map_replace (as : List Link) (name other : String) (lnk : Link)
    (hlnk : lnk.name = name) (hne : other ≠ name) :
    (as.map (fun l => if l.name = name then lnk else l)).find? (fun l => l.name == other)
      = as.find? (fun l => l.name == other) := by
  induction as with
  | nil => simp
  | cons a as ih =>
    simp only [List.map_cons, List.find?_cons]
    by_cases ha : a.name = name
    · have h1 : (lnk.name == other) = false := by
        rw [hlnk, beq_eq_false_iff_ne]
        exact fun hc => hne hc.symm
      have h2 : (a.name == other) = false := by
        rw [ha, beq_eq_false_iff_ne]
        exact fun hc => hne hc.symm
      simp only [if_pos ha, h1, h2, ih]
    · simp only [if_neg ha]
      cases hf : (a.name == other) <;> simp [hf, ih]

theorem replaceOrAppend_find_other (links : List Link) (name : String) (lnk : Link)
    (hlnk : lnk.name = name) (other : String) (hne : other ≠ name) :
    (replaceOrAppend links name lnk).find? (fun l => l.name == other)
      = links.find? (fun l => l.name == other) := by
  unfold replaceOrAppend
  split_ifs with hany
  · exact find_map_replace links name other lnk hlnk hne
  · rw [List.find?_append]
    cases hfind : links.find? (fun l => l.name == other) with
    | some a => simp
    | none =>
      have hf : (lnk.name == other) = false := by
        rw [hlnk, beq_eq_false_iff_ne]
        exact fun hc => hne hc.symm
      simp [List.find?_cons, hf, Option.orElse]

theorem getNode_error_shape {s : Store} {k : String} {e : GoError}
    (h : getNode s k = .error e) :
    e = .wrap ("failed to get node from store") (.msg ("block not found"))
      ∧ storeFind s k = none := by
  unfold getNode storeGet at h
  cases hf : storeFind s k <;> rw [hf] at h <;> simp_all

/-- Successful resolutions and path-not-found outcomes survive store
extension: the walk only reads nodes that are still there. -/
theorem resolveComponents_mono : ∀ (comps : List String) (s s' : Store) (cur : String)
    (res : Except ResolveErr String), StoreLe s s' →
    resolveComponents s comps cur = res →
    (∀ c e, res ≠ .error (.notFound c e)) →
    resolveComponents s' comps cur = res := by
  intro comps
  induction comps with
  | nil =>
    intro s s' cur res hle h hnf
    simpa [resolveComponents] using h
  | cons comp rest ih =>
    intro s s' cur res hle h hnf
    rw [resolveComponents] at h ⊢
    by_cases hc : comp = ""
    · rw [if_pos hc] at h ⊢
      exact ih _ _ _ _ hle h hnf
    · rw [if_neg hc] at h ⊢
      cases hg : getNode s cur with
      | error e =>
        rw [hg] at h
        exact absurd h.symm (hnf cur e)
      | ok node =>
        rw [hg] at h
        have hg' : getNode s' cur = .ok node := getNode_ok_iff.mpr (hle _ _ (getNode_ok_iff.mp hg))
        rw [hg']
        dsimp only at h ⊢
        cases hfl : node.links.find? (fun l => l.name == comp) with
        | some l =>
          rw [hfl] at h
          dsimp only at h ⊢
          exact ih _ _ _ _ hle h hnf
        | none =>
          rw [hfl] at h
          dsimp only at h ⊢
          exact h

/-- After a replace-or-append both runs replace in place, so replacing the
same name with the same link again changes nothing. -/
theorem replaceOrAppend_idem (links : List Link) (name : String) (lnk : Link)
    (h : lnk.name = name) :
    replaceOrAppend (replaceOrAppend links name lnk) name lnk
      = replaceOrAppend links name lnk := by
  unfold replaceOrAppend
  by_cases hany : links.any (fun l => l.name == name) = true
  · rw [if_pos hany]
    have hany2 : (links.map (fun l => if l.name = name then lnk else l)).any
        (fun l => l.name == name) = true := by
      simp only [List.any_eq_true] at hany ⊢
      obtain ⟨a, ha, haeq⟩ := hany
      refine ⟨lnk, List.mem_map.mpr ⟨a, ha, ?_⟩, by simp [h]⟩
      simp at haeq
      simp [haeq]
    rw [if_pos hany2, List.map_map]
    apply List.map_congr_left
    intro a _
    by_cases haname : a.name = name
    · simp [haname, h]
    · simp [haname]
  · rw [if_neg hany]
    have hany2 : ((links ++ [lnk]).any (fun l => l.name == name)) = true := by
      simp [h]
    rw [if_pos hany2, List.map_append]
    congr 1
    · conv_rhs => rw [← List.map_id links]
      apply List.map_congr_left
      intro a ha
      have hne : ¬ a.name = name := by
        intro hc
        apply hany
        simp only [List.any_eq_true]
        exact ⟨a, ha, by simp [hc]⟩
      simp [hne]
    · simp [h]

/-- A successful recursive update leaves the store well-formed and only
extends it. -/
theorem updateDir_wf_mono : ∀ (parents : List String) (s : Store) (c item t : String)
    (sz : Nat) (s' : Store) (c' : String), WFStore s →
    updateDirRecursive s c parents item t sz = .ok (s', c') →
    WFStore s' ∧ StoreLe s s' := by
  intro parents
  induction parents with
  | nil =>
    intro s c item t sz s' c' hwf h
    rw [updateDirRecursive] at h
    cases hg : getNode s c with
    | error e =>
      rw [hg] at h
      obtain ⟨he, -⟩ := getNode_error_shape hg
      subst he
      simp [errorsIs_blockNotFound] at h
    | ok N =>
      rw [hg] at h
      simp only [addNode, Except.ok.injEq, Prod.mk.injEq] at h
      obtain ⟨hs', -⟩ := h
      rw [← hs']
      exact ⟨WFStore_put hwf _, StoreLe.put hwf _⟩
  | cons hcomp rest ih =>
    intro s c item t sz s' c' hwf h
    rw [updateDirRecursive] at h
    cases hg : getNode s c with
    | error e =>
      rw [hg] at h
      obtain ⟨he, -⟩ := getNode_error_shape hg
      subst he
      simp [errorsIs_blockNotFound] at h
    | ok N =>
      rw [hg] at h
      dsimp only at h
      have hnext : ∀ s0 nextC, WFStore s0 → StoreLe s s0 →
          (match updateDirRecursive s0 nextC rest item t sz with
            | .error e => Except.error (GoError.wrap ("recursive update failed") e)
            | .ok (s1, newNextDirCid) =>
              match getNode s1 newNextDirCid with
              | .error e => Except.error
                  (GoError.wrap ("failed to get new next directory node after recursive update") e)
              | .ok newNextDirNode =>
                .ok (addNode s1 ⟨[], replaceOrAppend N.links hcomp
                    ⟨hcomp, newNextDirCid, calculateNodeSize newNextDirNode⟩⟩)) = .ok (s', c') →
          WFStore s' ∧ StoreLe s s' := by
        intro s0 nextC hwf0 hle0 hm
        cases hu : updateDirRecursive s0 nextC rest item t sz with
        | error e => rw [hu] at hm; simp at hm
        | ok p =>
          rw [hu] at hm
          obtain ⟨s1, nn⟩ := p
          obtain ⟨hwf1, hle1⟩ := ih s0 nextC item t sz s1 nn hwf0 hu
          dsimp only at hm
          cases hgn : getNode s1 nn with
          | error e => rw [hgn] at hm; simp at hm
          | ok M =>
            rw [hgn] at hm
            simp only [addNode, Except.ok.injEq, Prod.mk.injEq] at hm
            obtain ⟨hs', -⟩ := hm
            rw [← hs']
            exact ⟨WFStore_put hwf1 _,
              (hle0.trans hle1).trans (StoreLe.put hwf1 _)⟩
      cases hfl : N.links.find? (fun l => l.name == hcomp) with
      | some link =>
        rw [hfl] at h
        dsimp only at h
        exact hnext s link.hash hwf StoreLe.rfl h
      | none =>
        rw [hfl] at h
        dsimp only at h
        simp only [addNode] at h
        exact hnext _ (nodeCid emptyNode) (WFStore_put hwf _) (StoreLe.put hwf _) h

/-- A successful update implies the node it started from was in the store:
the treat-as-empty branch is dead because the store error never carries the
badger sentinel. -/
theorem updateDir_src_found (parents : List String) (s : Store) (c item t : String)
    (sz : Nat) (s' : Store) (c' : String)
    (h : updateDirRecursive s c parents item t sz = .ok (s', c')) :
    ∃ N, storeFind s c = some N := by
  cases parents with
  | nil =>
    rw [updateDirRecursive] at h
    cases hg : getNode s c with
    | error e =>
      rw [hg] at h
      obtain ⟨he, -⟩ := getNode_error_shape hg
      subst he
      simp [errorsIs_blockNotFound] at h
    | ok N => exact ⟨N, getNode_ok_iff.mp hg⟩
  | cons hcomp rest =>
    rw [updateDirRecursive] at h
    cases hg : getNode s c with
    | error e =>
      rw [hg] at h
      obtain ⟨he, -⟩ := getNode_error_shape hg
      subst he
      simp [errorsIs_blockNotFound] at h
    | ok N => exact ⟨N, getNode_ok_iff.mp hg⟩

/-- The name whose entry the update rewrites at the top level: the first
parent component, or the item name when the parent chain is empty. -/
def topName : List String → String → String
  | [], item => item
  | h :: _, _ => h

/-- The node the update stores at the returned CID: the fetched node's links
with exactly the top-level entry replaced or appended (its data dropped). -/
theorem updateDir_top (parents : List String) (s : Store) (c item t : String)
    (sz : Nat) (s' : Store) (c' : String) (N : Node)
    (h : updateDirRecursive s c parents item t sz = .ok (s', c'))
    (hN : storeFind s c = some N) :
    ∃ lnk : Link, lnk.name = topName parents item ∧
      storeFind s' c' = some ⟨[], replaceOrAppend N.links (topName parents item) lnk⟩ := by
  cases parents with
  | nil =>
    rw [updateDirRecursive] at h
    rw [getNode_ok_iff.mpr hN] at h
    dsimp only at h
    simp only [addNode, Except.ok.injEq, Prod.mk.injEq] at h
    obtain ⟨hs', hc'⟩ := h
    refine ⟨⟨item, t, sz⟩, rfl, ?_⟩
    rw [← hs', ← hc']
    exact storeFind_put_self _ _
  | cons hcomp rest =>
    rw [updateDirRecursive] at h
    rw [getNode_ok_iff.mpr hN] at h
    dsimp only at h
    have main : ∀ s0 nextC,
        (match updateDirRecursive s0 nextC rest item t sz with
          | .error e => Except.error (GoError.wrap ("recursive update failed") e)
          | .ok (s1, newNextDirCid) =>
            match getNode s1 newNextDirCid with
            | .error e => Except.error
                (GoError.wrap ("failed to get new next directory node after recursive update") e)
            | .ok newNextDirNode =>
              .ok (addNode s1 ⟨[], replaceOrAppend N.links hcomp
                  ⟨hcomp, newNextDirCid, calculateNodeSize newNextDirNode⟩⟩)) = .ok (s', c') →
        ∃ lnk : Link, lnk.name = hcomp ∧
          storeFind s' c' = some ⟨[], replaceOrAppend N.links hcomp lnk⟩ := by
      intro s0 nextC hm
      cases hu : updateDirRecursive s0 nextC rest item t sz with
      | error e => rw [hu] at hm; simp at hm
      | ok p =>
        rw [hu] at hm
        obtain ⟨s1, nn⟩ := p
        dsimp only at hm
        cases hgn : getNode s1 nn with
        | error e => rw [hgn] at hm; simp at hm
        | ok M =>
          rw [hgn] at hm
          simp only [addNode, Except.ok.injEq, Prod.mk.injEq] at hm
          obtain ⟨hs', hc'⟩ := hm
          refine ⟨⟨hcomp, nn, calculateNodeSize M⟩, rfl, ?_⟩
          rw [← hs', ← hc']
          exact storeFind_put_self _ _
    cases hfl : N.links.find? (fun l => l.name == hcomp) with
    | some link =>
      rw [hfl] at h
      dsimp only at h
      exact main s link.hash h
    | none =>
      rw [hfl] at h
      dsimp only at h
      exact main _ (nodeCid emptyNode) h

/-- Resolving the parent chain plus the item name under the updated root
reaches the target CID, provided no component is the empty string (the
resolver skips empty components; the mutator does not). -/
theorem updateDir_resolve : ∀ (parents : List String) (s : Store) (c item t : String)
    (sz : Nat) (s' : Store) (c' : String), WFStore s →
    (∀ p ∈ parents, p ≠ "") → item ≠ "" →
    updateDirRecursive s c parents item t sz = .ok (s', c') →
    resolveComponents s' (parents ++ [item]) c' = .ok t := by
  intro parents
  induction parents with
  | nil =>
    intro s c item t sz s' c' hwf hpar hitem h
    rw [updateDirRecursive] at h
    cases hg : getNode s c with
    | error e =>
      rw [hg] at h
      obtain ⟨he, -⟩ := getNode_error_shape hg
      subst he
      simp [errorsIs_blockNotFound] at h
    | ok N =>
      rw [hg] at h
      dsimp only at h
      simp only [addNode, Except.ok.injEq, Prod.mk.injEq] at h
      obtain ⟨hs', hc'⟩ := h
      rw [List.nil_append, resolveComponents, if_neg hitem]
      have hfind : storeFind s' c'
          = some ⟨[], replaceOrAppend N.links item ⟨item, t, sz⟩⟩ := by
        rw [← hs', ← hc']
        exact storeFind_put_self _ _
      rw [getNode_ok_iff.mpr hfind]
      dsimp only
      rw [replaceOrAppend_find_self N.links item ⟨item, t, sz⟩ rfl]
      dsimp only
      rw [resolveComponents]
  | cons hcomp rest ih =>
    intro s c item t sz s' c' hwf hpar hitem h
    rw [updateDirRecursive] at h
    cases hg : getNode s c with
    | error e =>
      rw [hg] at h
      obtain ⟨he, -⟩ := getNode_error_shape hg
      subst he
      simp [errorsIs_blockNotFound] at h
    | ok N =>
      rw [hg] at h
      dsimp only at h
      have main : ∀ s0 nextC, WFStore s0 →
          (match updateDirRecursive s0 nextC rest item t sz with
            | .error e => Except.error (GoError.wrap ("recursive update failed") e)
            | .ok (s1, newNextDirCid) =>
              match getNode s1 newNextDirCid with
              | .error e => Except.error
                  (GoError.wrap ("failed to get new next directory node after recursive update") e)
              | .ok newNextDirNode =>
                .ok (addNode s1 ⟨[], replaceOrAppend N.links hcomp
                    ⟨hcomp, newNextDirCid, calculateNodeSize newNextDirNode⟩⟩)) = .ok (s', c') →
          resolveComponents s' ((hcomp :: rest) ++ [item]) c' = .ok t := by
        intro s0 nextC hwf0 hm
        cases hu : updateDirRecursive s0 nextC rest item t sz with
        | error e => rw [hu] at hm; simp at hm
        | ok p =>
          rw [hu] at hm
          obtain ⟨s1, nn⟩ := p
          dsimp only at hm
          cases hgn : getNode s1 nn with
          | error e => rw [hgn] at hm; simp at hm
          | ok M =>
            rw [hgn] at hm
            simp only [addNode, Except.ok.injEq, Prod.mk.injEq] at hm
            obtain ⟨hs', hc'⟩ := hm
            obtain ⟨hwf1, -⟩ := updateDir_wf_mono rest s0 nextC item t sz s1 nn hwf0 hu
            have hres1 : resolveComponents s1 (rest ++ [item]) nn = .ok t :=
              ih s0 nextC item t sz s1 nn hwf0 (fun p hp => hpar p (by simp [hp])) hitem hu
            rw [List.cons_append, resolveComponents, if_neg (hpar hcomp (by simp))]
            have hfind : storeFind s' c' = some ⟨[], replaceOrAppend N.links hcomp
                ⟨hcomp, nn, calculateNodeSize M⟩⟩ := by
              rw [← hs', ← hc']
              exact storeFind_put_self _ _
            rw [getNode_ok_iff.mpr hfind]
            dsimp only
            rw [replaceOrAppend_find_self N.links hcomp ⟨hcomp, nn, calculateNodeSize M⟩ rfl]
            dsimp only
            refine resolveComponents_mono _ s1 s' nn _ ?_ hres1 (by intro c e hc; simp at hc)
            rw [← hs']
            exact StoreLe.put hwf1 _
      cases hfl : N.links.find? (fun l => l.name == hcomp) with
      | some link =>
        rw [hfl] at h
        dsimp only at h
        exact main s link.hash hwf h
      | none =>
        rw [hfl] at h
        dsimp only at h
        exact main _ (nodeCid emptyNode) (WFStore_put hwf _) h

/-- Re-running the same update from the CID a successful run returned (in
any well-formed extension of the resulting store) succeeds and returns the
same CID again: the links already carry the new entry, so the rebuilt nodes
are identical. -/
theorem updateDir_rerun : ∀ (parents : List String) (s : Store) (c item t : String)
    (sz : Nat) (s' : Store) (c' : String), WFStore s →
    updateDirRecursive s c parents item t sz = .ok (s', c') →
    ∀ s'' : Store, WFStore s'' → StoreLe s' s'' →
    ∃ s3, updateDirRecursive s'' c' parents item t sz = .ok (s3, c') := by
  intro parents
  induction parents with
  | nil =>
    intro s c item t sz s' c' hwf h s'' hwf'' hle
    rw [updateDirRecursive] at h
    cases hg : getNode s c with
    | error e =>
      rw [hg] at h
      obtain ⟨he, -⟩ := getNode_error_shape hg
      subst he
      simp [errorsIs_blockNotFound] at h
    | ok N =>
      rw [hg] at h
      dsimp only at h
      simp only [addNode, Except.ok.injEq, Prod.mk.injEq] at h
      obtain ⟨hs', hc'⟩ := h
      set N' : Node := ⟨[], replaceOrAppend N.links item ⟨item, t, sz⟩⟩ with hN'
      have hfind'' : storeFind s'' c' = some N' := by
        apply hle
        rw [← hs', ← hc']
        exact storeFind_put_self _ _
      refine ⟨(addNode s'' N').1, ?_⟩
      rw [updateDirRecursive, getNode_ok_iff.mpr hfind'']
      dsimp only
      have hsame : (⟨[], replaceOrAppend N'.links item ⟨item, t, sz⟩⟩ : Node) = N' := by
        rw [hN']
        simp only
        rw [replaceOrAppend_idem N.links item ⟨item, t, sz⟩ rfl]
      rw [hsame, ← hc']
      rfl
  | cons hcomp rest ih =>
    intro s c item t sz s' c' hwf h s'' hwf'' hle
    rw [updateDirRecursive] at h
    cases hg : getNode s c with
    | error e =>
      rw [hg] at h
      obtain ⟨he, -⟩ := getNode_error_shape hg
      subst he
      simp [errorsIs_blockNotFound] at h
    | ok N =>
      rw [hg] at h
      dsimp only at h
      have main : ∀ s0 nextC, WFStore s0 → StoreLe s s0 →
          (match updateDirRecursive s0 nextC rest item t sz with
            | .error e => Except.error (GoError.wrap ("recursive update failed") e)
            | .ok (s1, newNextDirCid) =>
              match getNode s1 newNextDirCid with
              | .error e => Except.error
                  (GoError.wrap ("failed to get new next directory node after recursive update") e)
              | .ok newNextDirNode =>
                .ok (addNode s1 ⟨[], replaceOrAppend N.links hcomp
                    ⟨hcomp, newNextDirCid, calculateNodeSize newNextDirNode⟩⟩)) = .ok (s', c') →
          ∃ s3, updateDirRecursive s'' c' (hcomp :: rest) item t sz = .ok (s3, c') := by
        intro s0 nextC hwf0 hle0 hm
        cases hu : updateDirRecursive s0 nextC rest item t sz with
        | error e => rw [hu] at hm; simp at hm
        | ok p =>
          rw [hu] at hm
          obtain ⟨s1, nn⟩ := p
          dsimp only at hm
          cases hgn : getNode s1 nn with
          | error e => rw [hgn] at hm; simp at hm
          | ok M =>
            rw [hgn] at hm
            simp only [addNode, Except.ok.injEq, Prod.mk.injEq] at hm
            obtain ⟨hs', hc'⟩ := hm
            obtain ⟨hwf1, -⟩ := updateDir_wf_mono rest s0 nextC item t sz s1 nn hwf0 hu
            set lnk : Link := ⟨hcomp, nn, calculateNodeSize M⟩ with hlnk
            set N' : Node := ⟨[], replaceOrAppend N.links hcomp lnk⟩ with hN'
            have hle1'' : StoreLe s1 s'' := by
              refine StoreLe.trans ?_ hle
              rw [← hs']
              exact StoreLe.put hwf1 _
            have hfind'' : storeFind s'' c' = some N' := by
              apply hle
              rw [← hs', ← hc']
              exact storeFind_put_self _ _
            obtain ⟨s3', hrerun⟩ := ih s0 nextC item t sz s1 nn hwf0 hu s'' hwf'' hle1''
            obtain ⟨hwf3', hle3'⟩ :=
              updateDir_wf_mono rest s'' nn item t sz s3' nn hwf'' hrerun
            have hM3 : storeFind s3' nn = some M :=
              hle3' _ _ (hle1'' _ _ (getNode_ok_iff.mp hgn))
            refine ⟨(addNode s3' N').1, ?_⟩
            rw [updateDirRecursive, getNode_ok_iff.mpr hfind'']
            try dsimp only
            rw [hN']
            try dsimp only
            rw [replaceOrAppend_find_self N.links hcomp lnk rfl]
            try dsimp only
            rw [hrerun]
            try dsimp only
            rw [getNode_ok_iff.mpr hM3]
            try dsimp only
            have hsame : (⟨[], replaceOrAppend (replaceOrAppend N.links hcomp lnk) hcomp
                ⟨hcomp, nn, calculateNodeSize M⟩⟩ : Node) = N' := by
              rw [hN', ← hlnk]
              rw [replaceOrAppend_idem N.links hcomp lnk rfl]
            rw [hsame, ← hc']
            rfl
      cases hfl : N.links.find? (fun l => l.name == hcomp) with
      | some link =>
        rw [hfl] at h
        dsimp only at h
        exact main s link.hash hwf StoreLe.rfl h
      | none =>
        rw [hfl] at h
        dsimp only at h
        exact main _ (nodeCid emptyNode) (WFStore_put hwf _) (StoreLe.put hwf _) h

/-! ## `PutNodeAtPath` level lemmas -/

theorem dropLast_append_getLastBang : ∀ (l : List String), l ≠ [] →
    l.dropLast ++ [l.getLast!] = l := by
  intro l
  induction l with
  | nil => intro h; exact absurd rfl h
  | cons x xs ih =>
    intro _
    cases xs with
    | nil => rfl
    | cons y ys =>
      have hne : (y :: ys) ≠ [] := by simp
      have hl : (x :: y :: ys).getLast! = (y :: ys).getLast! := by
        simp [List.getLast!, List.getLast?]
      rw [List.dropLast_cons_of_ne_nil hne, hl, List.cons_append, ih hne]

/-- A successful `PutNodeAtPath` run, decomposed: the path was neither empty
nor `/`, it has components, and the recursive update succeeded. -/
theorem putNodeAtPath_ok_elim {s : Store} {r path t : String} {sz : Nat} {s' : Store}
    {r' : String} (h : putNodeAtPath s r path t sz = .ok (s', r')) :
    ¬(path = "" ∨ path = "/") ∧ splitPath path ≠ [] ∧
    updateDirRecursive s r (splitPath path).dropLast (splitPath path).getLast! t sz
      = .ok (s', r') := by
  unfold putNodeAtPath at h
  by_cases hp : path = "" ∨ path = "/"
  · rw [if_pos hp] at h
    simp at h
  · rw [if_neg hp] at h
    dsimp only at h
    by_cases hc : splitPath path = []
    · rw [if_pos hc] at h
      simp at h
    · rw [if_neg hc] at h
      refine ⟨hp, hc, ?_⟩
      cases hu : updateDirRecursive s r (splitPath path).dropLast (splitPath path).getLast! t sz with
      | error e => rw [hu] at h; simp at h
      | ok p =>
        rw [hu] at h
        obtain ⟨a, b⟩ := p
        simp only [Except.ok.injEq, Prod.mk.injEq] at h
        rw [h.1, h.2]

theorem putNodeAtPath_ok_build {s : Store} {r path t : String} {sz : Nat} {s' : Store}
    {r' : String} (hp : ¬(path = "" ∨ path = "/")) (hc : splitPath path ≠ [])
    (hu : updateDirRecursive s r (splitPath path).dropLast (splitPath path).getLast! t sz
      = .ok (s', r')) :
    putNodeAtPath s r path t sz = .ok (s', r') := by
  unfold putNodeAtPath
  rw [if_neg hp]
  dsimp only
  rw [if_neg hc, hu]

theorem resolvePath_of_ne_nil {s : Store} {root path : String} (hc : splitPath path ≠ []) :
    resolvePath s root path = resolveComponents s (splitPath path) root := by
  unfold resolvePath
  rw [if_neg (fun hand => hc hand.1)]

theorem topName_split : ∀ (l : List String), l ≠ [] →
    l.head? = some (topName l.dropLast l.getLast!) := by
  intro l hl
  cases l with
  | nil => exact absurd rfl hl
  | cons x xs =>
    cases xs with
    | nil => simp [topName, List.getLast!, List.getLast?]
    | cons y ys => simp [topName, List.dropLast]

/-- C5 (amended): `PutNodeAtPath` preserves unrelated subtrees.  For a path
`p1` all of whose components are non-empty and whose first component differs
from that of the put path `p2`, a successful resolution of `p1` yields the
same CID after the put, and a path-not-found outcome stays a path-not-found
at the same component.  (The original claim — same outcome whenever the
first components merely differ — is refuted by
`putNodeAtPath_frame_core_cex`: an empty first component is skipped by the
resolver, so `//x/f` and `/x/f` denote the same spine yet have different
first components; resolution of a missing path can also change from
`notFound` to a different error as the spine is created.) -/
theorem putNodeAtPath_frame_core (s : Store) (r p2 t : String) (sz : Nat) (s' : Store)
    (r' : String) (p1 : String) (hwf : WFStore s)
    (h : putNodeAtPath s r p2 t sz = .ok (s', r'))
    (hne1 : ∀ c ∈ splitPath p1, c ≠ "") (hc1 : splitPath p1 ≠ [])
    (hd : (splitPath p1).head? ≠ (splitPath p2).head?) :
    (∀ cid, resolvePath s r p1 = .ok cid → resolvePath s' r' p1 = .ok cid) ∧
    (∀ comp nd, resolvePath s r p1 = .error (.pathNotFound comp nd) →
      ∃ nd', resolvePath s' r' p1 = .error (.pathNotFound comp nd')) := by
  obtain ⟨hp, hc2, hu⟩ := putNodeAtPath_ok_elim h
  obtain ⟨N, hN⟩ := updateDir_src_found _ _ _ _ _ _ _ _ hu
  obtain ⟨lnk, hlnkname, hroot'⟩ := updateDir_top _ _ _ _ _ _ _ _ N hu hN
  obtain ⟨hwf', hle⟩ := updateDir_wf_mono _ _ _ _ _ _ _ _ hwf hu
  cases hsp1 : splitPath p1 with
  | nil => exact absurd hsp1 hc1
  | cons c1 rest1 =>
    have hc1ne : c1 ≠ "" := hne1 c1 (by rw [hsp1]; simp)
    have hd' : c1 ≠ topName (splitPath p2).dropLast (splitPath p2).getLast! := by
      intro hcontra
      apply hd
      rw [hsp1, topName_split _ hc2]
      simp [hcontra]
    have hfind' : (replaceOrAppend N.links
        (topName (splitPath p2).dropLast (splitPath p2).getLast!) lnk).find?
          (fun l => l.name == c1)
        = N.links.find? (fun l => l.name == c1) :=
      replaceOrAppend_find_other _ _ _ hlnkname c1 hd'
    constructor
    · intro cid hres
      rw [resolvePath_of_ne_nil hc1, hsp1, resolveComponents, if_neg hc1ne,
        getNode_ok_iff.mpr hN] at hres
      dsimp only at hres
      rw [resolvePath_of_ne_nil (by rw [hsp1]; simp : splitPath p1 ≠ []), hsp1,
        resolveComponents, if_neg hc1ne, getNode_ok_iff.mpr hroot']
      dsimp only
      rw [hfind']
      cases hfl : N.links.find? (fun l => l.name == c1) with
      | none =>
        rw [hfl] at hres
        dsimp only at hres
        simp at hres
      | some l =>
        rw [hfl] at hres
        dsimp only at hres ⊢
        exact resolveComponents_mono rest1 s s' l.hash _ hle hres (by intro c e hc; simp at hc)
    · intro comp nd hres
      rw [resolvePath_of_ne_nil hc1, hsp1, resolveComponents, if_neg hc1ne,
        getNode_ok_iff.mpr hN] at hres
      dsimp only at hres
      rw [resolvePath_of_ne_nil (by rw [hsp1]; simp : splitPath p1 ≠ []), hsp1,
        resolveComponents, if_neg hc1ne, getNode_ok_iff.mpr hroot']
      dsimp only
      rw [hfind']
      cases hfl : N.links.find? (fun l => l.name == c1) with
      | none =>
        rw [hfl] at hres
        dsimp only at hres ⊢
        simp only [Except.error.injEq, ResolveErr.pathNotFound.injEq] at hres
        exact ⟨r', by rw [← hres.1]⟩
      | some l =>
        rw [hfl] at hres
        dsimp only at hres ⊢
        exact ⟨nd, resolveComponents_mono rest1 s s' l.hash _ hle hres
          (by intro c e hc; simp at hc)⟩

/-! ## Builder characterization -/

/-- The stores produced by the child pass of a `BuildDAGFromLeaves` group. -/
def putAll (s : Store) (g : List Node) : Store :=
  g.foldl (fun st c => storePut st (nodeCid c) c) s

/-- The placeholder links the first pass appends (sizes still zero). -/
def placeLinks (g : List Node) : List Link :=
  g.map (fun c => ⟨"", nodeCid c, 0⟩)

/-- The links after the size fix-up pass. -/
def sizedLinks (g : List Node) : List Link :=
  g.map (fun c => ⟨"", nodeCid c, calculateNodeSize c⟩)

/-- The parent node a group produces. -/
def groupParent (g : List Node) : Node := ⟨[], sizedLinks g⟩

theorem processGroup_first (g : List Node) : ∀ (p : Store × List Link),
    g.foldl (fun (acc : Store × List Link) child =>
        ((addNode acc.1 child).1, acc.2 ++ [⟨"", (addNode acc.1 child).2, 0⟩])) p
      = (putAll p.1 g, p.2 ++ placeLinks g) := by
  induction g with
  | nil => intro p; simp [putAll, placeLinks]
  | cons c g ih =>
    intro p
    rw [List.foldl_cons, ih]
    simp [addNode, putAll, placeLinks]

theorem WFStore_putAll {s : Store} (hwf : WFStore s) (g : List Node) :
    WFStore (putAll s g) := by
  induction g generalizing s with
  | nil => exact hwf
  | cons c g ih => exact ih (WFStore_put hwf c)

theorem StoreLe.putAll {s : Store} (hwf : WFStore s) (g : List Node) :
    StoreLe s (putAll s g) := by
  induction g generalizing s with
  | nil => exact StoreLe.rfl
  | cons c g ih =>
    exact StoreLe.trans (StoreLe.put hwf c) (ih (WFStore_put hwf c))

theorem storeFind_putAll {s : Store} (hwf : WFStore s) (g : List Node) :
    ∀ c ∈ g, storeFind (putAll s g) (nodeCid c) = some c := by
  induction g generalizing s with
  | nil => intro c hc; simp at hc
  | cons d g ih =>
    intro c hc
    rcases List.mem_cons.mp hc with h | h
    · subst h
      exact StoreLe.putAll (WFStore_put hwf c) g _ _ (storeFind_put_self s c)
    · exact ih (WFStore_put hwf d) c h

theorem fixLinks_map (s2 : Store) (g : List Node)
    (hfind : ∀ c ∈ g, storeFind s2 (nodeCid c) = some c) :
    fixLinks s2 (placeLinks g) = .ok (sizedLinks g) := by
  induction g with
  | nil => rfl
  | cons c g ih =>
    have ih' := ih (fun d hd => hfind d (by simp [hd]))
    simp only [placeLinks, List.map_cons] at ih' ⊢
    rw [fixLinks]
    rw [getNode_ok_iff.mpr (hfind c (by simp))]
    dsimp only
    rw [ih']
    simp [sizedLinks]

/-- What one group of `BuildDAGFromLeaves` does: it succeeds, returns the
sized parent, and the resulting store is a well-formed extension holding
every child and the parent.  (The zero-size placeholder parent is also left
in the store, under its own CID.) -/
theorem processGroup_spec (s : Store) (g : List Node) (hwf : WFStore s) :
    ∃ s', processGroup s g = .ok (s', groupParent g) ∧ WFStore s' ∧ StoreLe s s' ∧
      (∀ c ∈ g, storeFind s' (nodeCid c) = some c) ∧
      storeFind s' (nodeCid (groupParent g)) = some (groupParent g) := by
  unfold processGroup
  rw [processGroup_first]
  dsimp only [addNode]
  simp only [List.nil_append]
  have hwf1 : WFStore (putAll s g) := WFStore_putAll hwf g
  have hle1 : StoreLe s (putAll s g) := StoreLe.putAll hwf g
  set s2 := storePut (putAll s g) (nodeCid (⟨[], placeLinks g⟩ : Node)) ⟨[], placeLinks g⟩
    with hs2
  have hwf2 : WFStore s2 := WFStore_put hwf1 _
  have hle2 : StoreLe (putAll s g) s2 := StoreLe.put hwf1 _
  have hfind2 : ∀ c ∈ g, storeFind s2 (nodeCid c) = some c := by
    intro c hc
    exact hle2 _ _ (storeFind_putAll hwf g c hc)
  rw [fixLinks_map s2 g hfind2]
  refine ⟨_, rfl, WFStore_put hwf2 _, ?_, ?_, ?_⟩
  · exact (hle1.trans hle2).trans (StoreLe.put hwf2 _)
  · intro c hc
    exact StoreLe.put hwf2 _ _ _ (hfind2 c hc)
  · exact storeFind_put_self _ _

/-! ## Chunk lemmas -/

theorem chunk_mem : ∀ (n : Nat) (b : Bytes), b.length ≤ n → ∀ (k : Nat),
    ∀ nd ∈ chunk (k + 1) b, nd.data ≠ [] ∧ nd.links = [] ∧ nd.data.length ≤ k + 1 := by
  intro n
  induction n with
  | zero =>
    intro b hb k nd hnd
    have hb0 : b = [] := List.eq_nil_of_length_eq_zero (by omega)
    subst hb0
    simp [chunk_nil] at hnd
  | succ n ihn =>
    intro b hb k nd hnd
    cases b with
    | nil => simp [chunk_nil] at hnd
    | cons b0 bs =>
      rw [chunk_cons] at hnd
      rcases List.mem_cons.mp hnd with h | h
      · subst h
        refine ⟨by simp, rfl, ?_⟩
        exact List.length_take_le (k + 1) (b0 :: bs)
      · exact ihn ((b0 :: bs).drop (k + 1))
          (by simp only [List.length_drop, List.length_cons] at hb ⊢; omega) k nd h

theorem chunk_flatten : ∀ (n : Nat) (b : Bytes), b.length ≤ n → ∀ (k : Nat),
    ((chunk (k + 1) b).map (fun nd => nd.data)).flatten = b := by
  intro n
  induction n with
  | zero =>
    intro b hb k
    have hb0 : b = [] := List.eq_nil_of_length_eq_zero (by omega)
    subst hb0
    rfl
  | succ n ihn =>
    intro b hb k
    cases b with
    | nil => rfl
    | cons b0 bs =>
      rw [chunk_cons]
      simp only [List.map_cons, List.flatten_cons]
      rw [ihn ((b0 :: bs).drop (k + 1))
        (by simp only [List.length_drop, List.length_cons] at hb ⊢; omega) k]
      exact List.take_append_drop _ _

theorem chunk_count : ∀ (m : Nat) (b : Bytes) (k : Nat), b.length ≤ m * (k + 1) →
    (chunk (k + 1) b).length ≤ m := by
  intro m
  induction m with
  | zero =>
    intro b k h
    have hb0 : b = [] := List.eq_nil_of_length_eq_zero (by omega)
    subst hb0
    simp [chunk_nil]
  | succ m ihm =>
    intro b k h
    cases b with
    | nil => simp [chunk_nil]
    | cons b0 bs =>
      rw [chunk_cons]
      simp only [List.length_cons]
      have := ihm ((b0 :: bs).drop (k + 1)) k (by
        rw [Nat.succ_mul] at h
        simp only [List.length_drop, List.length_cons] at h ⊢
        omega)
      omega

theorem chunk_single (b : Bytes) (k : Nat) (h0 : b ≠ []) (hle : b.length ≤ k + 1) :
    chunk (k + 1) b = [⟨b, []⟩] := by
  cases b with
  | nil => exact absurd rfl h0
  | cons b0 bs =>
    rw [chunk_cons]
    rw [List.take_of_length_le hle, List.drop_eq_nil_of_le hle, chunk_nil]

theorem chunk_replicate (z : Byte) : ∀ (n : Nat),
    chunk 1 (List.replicate n z) = List.replicate n ⟨[z], []⟩ := by
  intro n
  induction n with
  | zero => rfl
  | succ n ih =>
    rw [List.replicate_succ]
    have hc := chunk_cons 0 z (List.replicate n z)
    simp only [Nat.zero_add] at hc
    rw [hc]
    simp only [List.take_succ_cons, List.take_zero, List.drop_succ_cons, List.drop_zero]
    rw [ih, List.replicate_succ]

/-! ## Small-DAG build characterization -/

theorem buildGroups_small (s : Store) (ns : List Node) (hwf : WFStore s)
    (hne : ns ≠ []) (hlen : ns.length ≤ 174) :
    ∃ s', buildGroups s ns = .ok (s', [groupParent ns]) ∧ WFStore s' ∧ StoreLe s s' ∧
      (∀ c ∈ ns, storeFind s' (nodeCid c) = some c) ∧
      storeFind s' (nodeCid (groupParent ns)) = some (groupParent ns) := by
  cases ns with
  | nil => exact absurd rfl hne
  | cons x xs =>
    rw [buildGroups_cons]
    rw [List.take_of_length_le hlen, List.drop_eq_nil_of_le hlen]
    obtain ⟨s1, hpg, hwf1, hle1, hfind, hparent⟩ := processGroup_spec s (x :: xs) hwf
    rw [hpg]
    simp only [exceptBind_ok]
    rw [buildGroups_nil]
    simp only [exceptBind_ok]
    exact ⟨s1, rfl, hwf1, hle1, hfind, hparent⟩

theorem buildDAGFromLeaves_small (s : Store) (ns : List Node) (hwf : WFStore s)
    (h2 : 2 ≤ ns.length) (hlen : ns.length ≤ 174) :
    ∃ s', buildDAGFromLeaves s ns
        = .ok (s', nodeCid (groupParent ns), calculateNodeSize (groupParent ns)) ∧
      WFStore s' ∧ StoreLe s s' ∧
      (∀ c ∈ ns, storeFind s' (nodeCid c) = some c) ∧
      storeFind s' (nodeCid (groupParent ns)) = some (groupParent ns) := by
  have hne : ns ≠ [] := by
    intro h
    rw [h] at h2
    simp at h2
  unfold buildDAGFromLeaves
  rw [if_neg hne]
  rw [buildLoop_eq]
  rw [if_pos (by omega : 1 < ns.length)]
  obtain ⟨s1, hbg, hwf1, hle1, hfind, hparent⟩ := buildGroups_small s ns hwf hne hlen
  rw [hbg]
  dsimp only
  rw [buildLoop_eq]
  rw [if_neg (by simp)]
  dsimp only [addNode]
  refine ⟨_, rfl, WFStore_put hwf1 _, hle1.trans (StoreLe.put hwf1 _), ?_, ?_⟩
  · intro c hc
    exact StoreLe.put hwf1 _ _ _ (hfind c hc)
  · exact StoreLe.put hwf1 _ _ _ hparent

theorem readChunks_flatten (s : Store) (g : List Node)
    (hfind : ∀ c ∈ g, storeFind s (nodeCid c) = some c)
    (hshape : ∀ c ∈ g, c.data ≠ [] ∧ c.links = []) :
    readChunks s (sizedLinks g) = .ok ((g.map (fun nd => nd.data)).flatten) := by
  induction g with
  | nil => rfl
  | cons c g ih =>
    simp only [sizedLinks, List.map_cons] at ih ⊢
    rw [readChunks]
    rw [getNode_ok_iff.mpr (hfind c (by simp))]
    dsimp only
    obtain ⟨hd, hl⟩ := hshape c (by simp)
    rw [if_neg (by simp [hd, hl])]
    rw [ih (fun d hdm => hfind d (by simp [hdm])) (fun d hdm => hshape d (by simp [hdm]))]
    simp

/-! ## Link-size invariant (C8) -/

/-- The per-subtree link-size invariant: every link of `n` points (in `s`) to
a stored child whose recomputed cumulative size (`CalculateNodeSize`) is the
size recorded on the link, recursively. -/
inductive SubtreeSized (s : Store) : Node → Prop where
  | intro (n : Node)
      (hsz : ∀ l ∈ n.links, ∃ c, storeFind s l.hash = some c ∧ l.size = calculateNodeSize c)
      (hrec : ∀ l ∈ n.links, ∀ c, storeFind s l.hash = some c → SubtreeSized s c) :
      SubtreeSized s n

theorem SubtreeSized.ofNoLinks {s : Store} {n : Node} (h : n.links = []) :
    SubtreeSized s n := by
  refine .intro n ?_ ?_ <;> rw [h] <;> intro l hl <;> simp at hl

theorem SubtreeSized.mono {s s' : Store} (hle : StoreLe s s') :
    ∀ {n : Node}, SubtreeSized s n → SubtreeSized s' n := by
  intro n h
  induction h with
  | intro n hsz hrec ih =>
    refine .intro n ?_ ?_
    · intro l hl
      obtain ⟨c, hc, hsize⟩ := hsz l hl
      exact ⟨c, hle _ _ hc, hsize⟩
    · intro l hl c hc'
      obtain ⟨c₀, hc₀, _⟩ := hsz l hl
      have hc₀' := hle _ _ hc₀
      rw [hc'] at hc₀'
      injection hc₀' with he
      subst he
      exact ih l hl _ hc₀

theorem SubtreeSized.ofGroupParent {s : Store} (g : List Node)
    (hfind : ∀ c ∈ g, storeFind s (nodeCid c) = some c)
    (hrec : ∀ c ∈ g, SubtreeSized s c) :
    SubtreeSized s (groupParent g) := by
  refine .intro _ ?_ ?_
  · intro l hl
    simp only [groupParent, sizedLinks, List.mem_map] at hl
    obtain ⟨c, hc, rfl⟩ := hl
    exact ⟨c, hfind c hc, rfl⟩
  · intro l hl c hc
    simp only [groupParent, sizedLinks, List.mem_map] at hl
    obtain ⟨d, hd, rfl⟩ := hl
    have hfd := hfind d hd
    rw [hc] at hfd
    injection hfd with he
    subst he
    exact hrec _ hd

theorem buildGroups_sized : ∀ (m : Nat) (ns : List Node), ns.length ≤ m →
    ∀ (s s' : Store) (ps : List Node), WFStore s → (∀ n ∈ ns, SubtreeSized s n) →
    buildGroups s ns = .ok (s', ps) →
    WFStore s' ∧ StoreLe s s' ∧ (∀ p ∈ ps, SubtreeSized s' p) := by
  intro m
  induction m with
  | zero =>
    intro ns hn s s' ps hwf hsub h
    have hns : ns = [] := List.eq_nil_of_length_eq_zero (by omega)
    subst hns
    rw [buildGroups_nil] at h
    cases h
    exact ⟨hwf, StoreLe.rfl, by intro p hp; simp at hp⟩
  | succ m ihm =>
    intro ns hn s s' ps hwf hsub h
    cases ns with
    | nil =>
      rw [buildGroups_nil] at h
      cases h
      exact ⟨hwf, StoreLe.rfl, by intro p hp; simp at hp⟩
    | cons x xs =>
      rw [buildGroups_cons] at h
      obtain ⟨s1, hpg, hwf1, hle1, hfind1, hpar1⟩ :=
        processGroup_spec s ((x :: xs).take 174) hwf
      rw [hpg] at h
      simp only [exceptBind_ok] at h
      cases hbg : buildGroups s1 ((x :: xs).drop 174) with
      | error e => rw [hbg] at h; simp at h
      | ok q =>
        rw [hbg] at h
        simp only [exceptBind_ok] at h
        cases h
        have hsub1 : ∀ n ∈ (x :: xs).drop 174, SubtreeSized s1 n := by
          intro n hn'
          exact (hsub n (List.mem_of_mem_drop hn')).mono hle1
        obtain ⟨hwf2, hle2, hps⟩ := ihm ((x :: xs).drop 174)
          (by simp only [List.length_drop, List.length_cons] at hn ⊢; omega)
          s1 q.1 q.2 hwf1 hsub1 (by rw [← hbg])
        have hparent : SubtreeSized s1 (groupParent ((x :: xs).take 174)) :=
          .ofGroupParent _ hfind1
            (fun c hc => (hsub c (List.mem_of_mem_take hc)).mono hle1)
        refine ⟨hwf2, hle1.trans hle2, ?_⟩
        intro p hp
        rcases List.mem_cons.mp hp with hp | hp
        · subst hp
          exact hparent.mono hle2
        · exact hps p hp

theorem buildLoop_sized : ∀ (m : Nat) (ns : List Node), ns.length ≤ m →
    ∀ (s s' : Store) (ps : List Node), WFStore s → (∀ n ∈ ns, SubtreeSized s n) →
    buildLoop s ns = .ok (s', ps) →
    WFStore s' ∧ StoreLe s s' ∧ (∀ p ∈ ps, SubtreeSized s' p) := by
  intro m
  induction m with
  | zero =>
    intro ns hn s s' ps hwf hsub h
    have hns : ns = [] := List.eq_nil_of_length_eq_zero (by omega)
    subst hns
    rw [buildLoop_eq] at h
    simp at h
    obtain ⟨h1, h2⟩ := h
    subst h1; subst h2
    exact ⟨hwf, StoreLe.rfl, hsub⟩
  | succ m ihm =>
    intro ns hn s s' ps hwf hsub h
    rw [buildLoop_eq] at h
    by_cases hlen : 1 < ns.length
    · rw [if_pos hlen] at h
      cases hbg : buildGroups s ns with
      | error e => rw [hbg] at h; simp at h
      | ok q =>
        rw [hbg] at h
        obtain ⟨hwf1, hle1, hnext⟩ :=
          buildGroups_sized ns.length ns le_rfl s q.1 q.2 hwf hsub (by rw [← hbg])
        have hql : q.2.length = (ns.length + 173) / 174 :=
          buildGroups_length ns s q.1 q.2 (by rw [← hbg])
        obtain ⟨hwf2, hle2, hps⟩ := ihm q.2 (by omega) q.1 s' ps hwf1 hnext h
        exact ⟨hwf2, hle1.trans hle2, hps⟩
    · rw [if_neg hlen] at h
      cases h
      exact ⟨hwf, StoreLe.rfl, hsub⟩

/-- One link of a stored node is correctly sized: it points to a stored
child and records that child's recomputed cumulative size
(`CalculateNodeSize`). -/
def linkSizedB (s : Store) (l : Link) : Bool :=
  match storeFind s l.hash with
  | some c => l.size == calculateNodeSize c
  | none => false

/-- The per-node link-size invariant of the claim: every link of `n` records
the recomputed cumulative size of the stored node at its hash. -/
def LinkSized (s : Store) (n : Node) : Prop :=
  ∀ l ∈ n.links, linkSizedB s l = true

/-- The store-wide invariant: every stored node satisfies `LinkSized`. -/
def StoreSized (s : Store) : Prop := ∀ p ∈ s, LinkSized s p.2

instance (s : Store) (n : Node) : Decidable (LinkSized s n) := by
  unfold LinkSized
  infer_instance

instance (s : Store) : Decidable (StoreSized s) := by
  unfold StoreSized LinkSized
  infer_instance

theorem linkSizedB_iff {s : Store} {l : Link} :
    linkSizedB s l = true ↔
      ∃ c, storeFind s l.hash = some c ∧ l.size = calculateNodeSize c := by
  unfold linkSizedB
  cases h : storeFind s l.hash <;> simp

theorem LinkSized.monotone {s s' : Store} (hle : StoreLe s s') {n : Node}
    (h : LinkSized s n) : LinkSized s' n := by
  intro l hl
  obtain ⟨c, hc, hsz⟩ := linkSizedB_iff.mp (h l hl)
  exact linkSizedB_iff.mpr ⟨c, hle _ _ hc, hsz⟩

theorem SubtreeSized.linkSized {s : Store} {n : Node} (h : SubtreeSized s n) :
    LinkSized s n := by
  cases h with
  | intro n hsz hrec =>
    intro l hl
    obtain ⟨c, hc, hs⟩ := hsz l hl
    exact linkSizedB_iff.mpr ⟨c, hc, hs⟩

theorem LinkSized.ofLinkFree {s : Store} {n : Node} (h : n.links = []) :
    LinkSized s n := by
  intro l hl
  rw [h] at hl
  simp at hl

theorem mem_putAll {g : List Node} : ∀ {s : Store} {p : String × Node},
    p ∈ putAll s g → p ∈ s ∨ ∃ c ∈ g, p = (nodeCid c, c) := by
  induction g with
  | nil => intro s p h; exact Or.inl h
  | cons c g ih =>
    intro s p h
    rcases ih h with h' | ⟨d, hd, hp⟩
    · rcases List.mem_cons.mp h' with h'' | h''
      · exact Or.inr ⟨c, by simp, h''⟩
      · exact Or.inl h''
    · exact Or.inr ⟨d, by simp [hd], hp⟩

theorem mem_replaceOrAppend {links : List Link} {name : String} {nl l : Link}
    (h : l ∈ replaceOrAppend links name nl) : l = nl ∨ l ∈ links := by
  unfold replaceOrAppend at h
  split at h
  · obtain ⟨x, hx, hxe⟩ := List.mem_map.mp h
    by_cases hn : x.name = name
    · rw [if_pos hn] at hxe
      exact Or.inl hxe.symm
    · rw [if_neg hn] at hxe
      exact Or.inr (hxe ▸ hx)
  · rcases List.mem_append.mp h with h' | h'
    · exact Or.inr h'
    · simp at h'
      exact Or.inl h'

/-- Which bindings one group adds to the store: the group's children, the
zero-sized placeholder parent, and the fixed-up parent. -/
theorem processGroup_mem (s : Store) (g : List Node) (s' : Store) (parent : Node)
    (h : processGroup s g = .ok (s', parent)) :
    ∀ p ∈ s', p ∈ s ∨ (∃ c ∈ g, p = (nodeCid c, c)) ∨
      (∀ l ∈ p.2.links, l.size = 0) ∨ p = (nodeCid parent, parent) := by
  unfold processGroup at h
  rw [processGroup_first] at h
  simp only [List.nil_append] at h
  dsimp only [addNode] at h
  cases hfl : fixLinks
      (storePut (putAll s g) (nodeCid (⟨[], placeLinks g⟩ : Node)) ⟨[], placeLinks g⟩)
      (placeLinks g) with
  | error e => rw [hfl] at h; simp at h
  | ok fixed =>
    rw [hfl] at h
    dsimp only at h
    cases h
    intro p hp
    rcases List.mem_cons.mp hp with hp1 | hp2
    · exact Or.inr (Or.inr (Or.inr hp1))
    · rcases List.mem_cons.mp hp2 with hp3 | hp4
      · refine Or.inr (Or.inr (Or.inl ?_))
        rw [hp3]
        intro l hl
        simp only [placeLinks, List.mem_map] at hl
        obtain ⟨c, -, rfl⟩ := hl
        rfl
      · rcases mem_putAll hp4 with hp5 | hp5
        · exact Or.inl hp5
        · exact Or.inr (Or.inl hp5)

/-- Which bindings one level adds: children of the level, zero-sized
placeholders, and the produced parents. -/
theorem buildGroups_mem : ∀ (m : Nat) (ns : List Node), ns.length ≤ m →
    ∀ (s s' : Store) (ps : List Node), buildGroups s ns = .ok (s', ps) →
    ∀ p ∈ s', p ∈ s ∨ (∃ c ∈ ns, p = (nodeCid c, c)) ∨
      (∀ l ∈ p.2.links, l.size = 0) ∨ ∃ q ∈ ps, p = (nodeCid q, q) := by
  intro m
  induction m with
  | zero =>
    intro ns hn s s' ps h
    have hns : ns = [] := List.eq_nil_of_length_eq_zero (by omega)
    subst hns
    rw [buildGroups_nil] at h
    cases h
    intro p hp
    exact Or.inl hp
  | succ m ihm =>
    intro ns hn s s' ps h
    cases ns with
    | nil =>
      rw [buildGroups_nil] at h
      cases h
      intro p hp
      exact Or.inl hp
    | cons x xs =>
      rw [buildGroups_cons] at h
      cases hpg : processGroup s ((x :: xs).take 174) with
      | error e => rw [hpg] at h; simp at h
      | ok pr =>
        rw [hpg] at h
        simp only [exceptBind_ok] at h
        cases hbg : buildGroups pr.1 ((x :: xs).drop 174) with
        | error e => rw [hbg] at h; simp at h
        | ok q =>
          rw [hbg] at h
          simp only [exceptBind_ok] at h
          cases h
          intro p hp
          rcases ihm ((x :: xs).drop 174)
              (by simp only [List.length_drop, List.length_cons] at hn ⊢; omega)
              pr.1 q.1 q.2 (by rw [← hbg]) p hp with h1 | ⟨c, hc, hp1⟩ | h1 | ⟨q', hq', hp1⟩
          · rcases processGroup_mem s ((x :: xs).take 174) pr.1 pr.2 (by rw [← hpg]) p h1
              with h2 | ⟨c, hc, hp2⟩ | h2 | h2
            · exact Or.inl h2
            · exact Or.inr (Or.inl ⟨c, List.mem_of_mem_take hc, hp2⟩)
            · exact Or.inr (Or.inr (Or.inl h2))
            · exact Or.inr (Or.inr (Or.inr ⟨pr.2, by simp, h2⟩))
          · exact Or.inr (Or.inl ⟨c, List.mem_of_mem_drop hc, hp1⟩)
          · exact Or.inr (Or.inr (Or.inl h1))
          · exact Or.inr (Or.inr (Or.inr ⟨q', by simp [hq'], hp1⟩))

/-- Which bindings the level loop adds: besides pre-existing ones, only
zero-sized placeholders and nodes that satisfy the link-size invariant in the
final store. -/
theorem buildLoop_mem : ∀ (m : Nat) (ns : List Node), ns.length ≤ m →
    ∀ (s s' : Store) (ps : List Node), WFStore s → (∀ n ∈ ns, SubtreeSized s n) →
    buildLoop s ns = .ok (s', ps) →
    ∀ p ∈ s', p ∈ s ∨ (∀ l ∈ p.2.links, l.size = 0) ∨ LinkSized s' p.2 := by
  intro m
  induction m with
  | zero =>
    intro ns hn s s' ps hwf hsub h
    have hns : ns = [] := List.eq_nil_of_length_eq_zero (by omega)
    subst hns
    rw [buildLoop_eq] at h
    simp at h
    obtain ⟨h1, -⟩ := h
    subst h1
    intro p hp
    exact Or.inl hp
  | succ m ihm =>
    intro ns hn s s' ps hwf hsub h
    rw [buildLoop_eq] at h
    by_cases hlen : 1 < ns.length
    · rw [if_pos hlen] at h
      cases hbg : buildGroups s ns with
      | error e => rw [hbg] at h; simp at h
      | ok q =>
        rw [hbg] at h
        obtain ⟨hwf1, hle1, hnext⟩ :=
          buildGroups_sized ns.length ns le_rfl s q.1 q.2 hwf hsub (by rw [← hbg])
        have hql : q.2.length = (ns.length + 173) / 174 :=
          buildGroups_length ns s q.1 q.2 (by rw [← hbg])
        obtain ⟨-, hle2, -⟩ := buildLoop_sized m q.2 (by omega) q.1 s' ps hwf1 hnext h
        intro p hp
        rcases ihm q.2 (by omega) q.1 s' ps hwf1 hnext h p hp with h1 | h1 | h1
        · rcases buildGroups_mem ns.length ns le_rfl s q.1 q.2 (by rw [← hbg]) p h1
            with h2 | ⟨c, hc, hp2⟩ | h2 | ⟨q', hq', hp2⟩
          · exact Or.inl h2
          · refine Or.inr (Or.inr ?_)
            rw [hp2]
            exact (((hsub c hc).mono hle1).linkSized).monotone hle2
          · exact Or.inr (Or.inl h2)
          · refine Or.inr (Or.inr ?_)
            rw [hp2]
            exact ((hnext q' hq').linkSized).monotone hle2
        · exact Or.inr (Or.inl h1)
        · exact Or.inr (Or.inr h1)
    · rw [if_neg hlen] at h
      cases h
      intro p hp
      exact Or.inl hp

/-- Which bindings a whole file build adds: besides pre-existing ones, only
zero-sized placeholder parents and nodes satisfying the link-size invariant
in the final store. -/
theorem buildDAG_mem (s : Store) (leaves : List Node) (hwf : WFStore s)
    (hleaf : ∀ lf ∈ leaves, lf.links = []) (s' : Store) (c : String) (sz : Nat)
    (h : buildDAGFromLeaves s leaves = .ok (s', c, sz)) :
    ∀ p ∈ s', p ∈ s ∨ (∀ l ∈ p.2.links, l.size = 0) ∨ LinkSized s' p.2 := by
  unfold buildDAGFromLeaves at h
  by_cases hl : leaves = []
  · rw [if_pos hl] at h
    dsimp only [addNode] at h
    cases h
    intro p hp
    rcases List.mem_cons.mp hp with hp1 | hp2
    · refine Or.inr (Or.inr ?_)
      rw [hp1]
      exact .ofLinkFree rfl
    · exact Or.inl hp2
  · rw [if_neg hl] at h
    cases hbl : buildLoop s leaves with
    | error e => rw [hbl] at h; simp at h
    | ok p =>
      rw [hbl] at h
      dsimp only at h
      obtain ⟨hwf1, hle1, hlev⟩ := buildLoop_sized leaves.length leaves le_rfl
        s p.1 p.2 hwf (fun n hn => .ofNoLinks (hleaf n hn)) hbl
      have hmem := buildLoop_mem leaves.length leaves le_rfl
        s p.1 p.2 hwf (fun n hn => .ofNoLinks (hleaf n hn)) hbl
      match hp2 : p.2, h with
      | [root], h =>
        dsimp only [addNode] at h
        cases h
        have hle2 : StoreLe p.1 (storePut p.1 (nodeCid root) root) := StoreLe.put hwf1 root
        intro q hq
        rcases List.mem_cons.mp hq with hq1 | hq2
        · refine Or.inr (Or.inr ?_)
          rw [hq1]
          exact ((hlev root (by rw [hp2]; simp)).linkSized).monotone hle2
        · rcases hmem q hq2 with h3 | h3 | h3
          · exact Or.inl h3
          · exact Or.inr (Or.inl h3)
          · exact Or.inr (Or.inr (h3.monotone hle2))

theorem storeFind_mem {s : Store} {k : String} {n : Node} (h : storeFind s k = some n) :
    ∃ p ∈ s, p.2 = n := by
  unfold storeFind at h
  cases hf : s.find? (fun p => p.1 == k) with
  | none => rw [hf] at h; simp at h
  | some p =>
    rw [hf] at h
    simp at h
    exact ⟨p, List.mem_of_find?_eq_some hf, h⟩

theorem LinkSized.ofStored {s : Store} {k : String} {n : Node} (hss : StoreSized s)
    (h : storeFind s k = some n) : LinkSized s n := by
  obtain ⟨p, hp, hpe⟩ := storeFind_mem h
  have hls := hss p hp
  rw [hpe] at hls
  exact hls

/-- `updateDirRecursive` preserves the store-wide link-size invariant: when
every stored node is correctly sized and the put target is stored with `sz`
equal to its recomputed size, every node in the result store — in particular
every spine node the update writes — is correctly sized.  (The rebuilt
child's link size is recomputed; the leaf link records the given target
size; all other links are copied from already-sized nodes.) -/
theorem updateDir_sized : ∀ (parents : List String) (s : Store) (c item t : String)
    (sz : Nat) (s' : Store) (c' : String), WFStore s → StoreSized s →
    (∃ tn, storeFind s t = some tn ∧ sz = calculateNodeSize tn) →
    updateDirRecursive s c parents item t sz = .ok (s', c') →
    StoreSized s' := by
  intro parents
  induction parents with
  | nil =>
    intro s c item t sz s' c' hwf hss htgt h
    rw [updateDirRecursive] at h
    cases hg : getNode s c with
    | error e =>
      rw [hg] at h
      obtain ⟨he, -⟩ := getNode_error_shape hg
      subst he
      simp [errorsIs_blockNotFound] at h
    | ok N =>
      rw [hg] at h
      simp only [addNode, Except.ok.injEq, Prod.mk.injEq] at h
      obtain ⟨hs', -⟩ := h
      subst hs'
      have hLN : LinkSized s N := .ofStored hss (getNode_ok_iff.mp hg)
      have hle := StoreLe.put hwf
        (⟨[], replaceOrAppend N.links item ⟨item, t, sz⟩⟩ : Node)
      intro p hp
      rcases List.mem_cons.mp hp with hp1 | hp2
      · subst hp1
        intro l hl
        dsimp only at hl
        rcases mem_replaceOrAppend hl with rfl | hl2
        · obtain ⟨tn, htn, hsz⟩ := htgt
          exact linkSizedB_iff.mpr ⟨tn, hle _ _ htn, hsz⟩
        · exact (hLN.monotone hle) l hl2
      · exact (hss p hp2).monotone hle
  | cons hcomp rest ih =>
    intro s c item t sz s' c' hwf hss htgt h
    rw [updateDirRecursive] at h
    cases hg : getNode s c with
    | error e =>
      rw [hg] at h
      obtain ⟨he, -⟩ := getNode_error_shape hg
      subst he
      simp [errorsIs_blockNotFound] at h
    | ok N =>
      rw [hg] at h
      dsimp only at h
      have hLN : LinkSized s N := .ofStored hss (getNode_ok_iff.mp hg)
      have hnext : ∀ s0 nextC, WFStore s0 → StoreLe s s0 → StoreSized s0 →
          (match updateDirRecursive s0 nextC rest item t sz with
            | .error e => Except.error (GoError.wrap ("recursive update failed") e)
            | .ok (s1, newNextDirCid) =>
              match getNode s1 newNextDirCid with
              | .error e => Except.error
                  (GoError.wrap ("failed to get new next directory node after recursive update") e)
              | .ok newNextDirNode =>
                .ok (addNode s1 ⟨[], replaceOrAppend N.links hcomp
                    ⟨hcomp, newNextDirCid, calculateNodeSize newNextDirNode⟩⟩)) = .ok (s', c') →
          StoreSized s' := by
        intro s0 nextC hwf0 hle0 hss0 hm
        cases hu : updateDirRecursive s0 nextC rest item t sz with
        | error e => rw [hu] at hm; simp at hm
        | ok p =>
          rw [hu] at hm
          obtain ⟨s1, nn⟩ := p
          obtain ⟨hwf1, hle1⟩ := updateDir_wf_mono rest s0 nextC item t sz s1 nn hwf0 hu
          obtain ⟨tn, htn, htsz⟩ := htgt
          have hss1 : StoreSized s1 := ih s0 nextC item t sz s1 nn hwf0 hss0
            ⟨tn, hle0 _ _ htn, htsz⟩ hu
          dsimp only at hm
          cases hgn : getNode s1 nn with
          | error e => rw [hgn] at hm; simp at hm
          | ok M =>
            rw [hgn] at hm
            simp only [addNode, Except.ok.injEq, Prod.mk.injEq] at hm
            obtain ⟨hs', -⟩ := hm
            subst hs'
            have hle2 := StoreLe.put hwf1
              (⟨[], replaceOrAppend N.links hcomp
                ⟨hcomp, nn, calculateNodeSize M⟩⟩ : Node)
            intro p hp
            rcases List.mem_cons.mp hp with hp1 | hp2
            · subst hp1
              intro l hl
              dsimp only at hl
              rcases mem_replaceOrAppend hl with rfl | hl2
              · exact linkSizedB_iff.mpr ⟨M, hle2 _ _ (getNode_ok_iff.mp hgn), rfl⟩
              · exact (hLN.monotone ((hle0.trans hle1).trans hle2)) l hl2
            · exact (hss1 p hp2).monotone hle2
      cases hfl : N.links.find? (fun l => l.name == hcomp) with
      | some link =>
        rw [hfl] at h
        dsimp only at h
        exact hnext s link.hash hwf StoreLe.rfl hss h
      | none =>
        rw [hfl] at h
        dsimp only at h
        simp only [addNode] at h
        have hssE : StoreSized (storePut s (nodeCid emptyNode) emptyNode) := by
          intro p hp
          rcases List.mem_cons.mp hp with hp1 | hp2
          · subst hp1
            exact .ofLinkFree rfl
          · exact (hss p hp2).monotone (StoreLe.put hwf emptyNode)
        exact hnext _ (nodeCid emptyNode) (WFStore_put hwf _) (StoreLe.put hwf _) hssE h

/-- Every node reachable from the root a file build returns is recursively
correctly sized. -/
theorem buildDAG_root_sized (store : Store) (leaves : List Node) (hwf : WFStore store)
    (hleaf : ∀ lf ∈ leaves, lf.links = []) (s' : Store) (c : String) (sz : Nat)
    (h : buildDAGFromLeaves store leaves = .ok (s', c, sz)) :
    ∃ root, storeFind s' c = some root ∧ SubtreeSized s' root := by
  unfold buildDAGFromLeaves at h
  by_cases hl : leaves = []
  · rw [if_pos hl] at h
    dsimp only [addNode] at h
    cases h
    exact ⟨emptyNode, storeFind_put_self _ _, .ofNoLinks rfl⟩
  · rw [if_neg hl] at h
    cases hbl : buildLoop store leaves with
    | error e => rw [hbl] at h; simp at h
    | ok p =>
      rw [hbl] at h
      dsimp only at h
      obtain ⟨hwf1, hle1, hlev⟩ := buildLoop_sized leaves.length leaves le_rfl
        store p.1 p.2 hwf (fun n hn => .ofNoLinks (hleaf n hn)) hbl
      match hp2 : p.2, h with
      | [root], h =>
        dsimp only [addNode] at h
        cases h
        refine ⟨root, storeFind_put_self _ _, ?_⟩
        have hroot : SubtreeSized p.1 root := hlev root (by rw [hp2]; simp)
        exact hroot.mono (StoreLe.put hwf1 root)

/-! ## Test fixtures used to state concrete witnesses and counterexamples -/

/-- The final store of `BuildDAGFromLeaves` (unchanged on failure), used to
state counterexamples about what the builder wrote. -/
def buildStore (s : Store) (leaves : List Node) : Store :=
  match buildDAGFromLeaves s leaves with
  | .ok (s', _, _) => s'
  | .error _ => s

/-- The final store of `PutNodeAtPath` (unchanged on failure), used to state
counterexamples about what the mutator wrote. -/
def putStore (s : Store) (r path t : String) (sz : Nat) : Store :=
  match putNodeAtPath s r path t sz with
  | .ok (s', _) => s'
  | .error _ => s

/-- The new root CID of `PutNodeAtPath` (the old root on failure). -/
def putRoot (s : Store) (r path t : String) (sz : Nat) : String :=
  match putNodeAtPath s r path t sz with
  | .ok (_, r') => r'
  | .error _ => r

/-- Composition used to state round-trip and frame counterexamples: run
`PutNodeAtPath` on `p2` and resolve `p1` against the root it returns (a put
failure is reported as a `notFound`). -/
def putThenResolveAt (s : Store) (r p2 t : String) (sz : Nat) (p1 : String) :
    Except ResolveErr String :=
  match putNodeAtPath s r p2 t sz with
  | .error e => .error (.notFound r (.wrap ("put failed") e))
  | .ok (s', r') => resolvePath s' r' p1

/-- A one-file directory node: `f ↦ FT`. -/
def frameDemoB : Node := ⟨[], [⟨"f", "FT", 1⟩]⟩

/-- A root directory with a subdirectory `x ↦ frameDemoB` and a file
`y ↦ K`. -/
def frameDemoA : Node := ⟨[], [⟨"x", nodeCid frameDemoB, 1⟩, ⟨"y", "K", 2⟩]⟩

/-- A well-formed store holding `frameDemoA` and `frameDemoB`. -/
def frameDemoStore : Store :=
  storePut (storePut [] (nodeCid frameDemoB) frameDemoB) (nodeCid frameDemoA) frameDemoA

/-- A store holding just the empty node, used as a trivial root. -/
def emptyRootStore : Store := storePut [] (nodeCid emptyNode) emptyNode

/-- The directory CID `BuildDirectoryDAG` produces for a given enumeration
order of the items map (`""` on failure; the builder never fails). -/
def dirCid (items : List (String × String × Nat)) : String :=
  match buildDirectoryDAG [] items with
  | .ok (_, c, _) => c
  | .error _ => ""

/-! ## Claims -/

/-- C1 (amended): for every byte string `b` and positive chunk size `k`
whose chunking yields at most the fanout 174 of leaves (`b.length ≤ 174 * k`),
reading back a built file round-trips: `getFileData` applied to the root CID
returned by `buildDAGFromLeaves` on `chunk k b` returns exactly `b`.  (The
original claim, asserting this also for leaf counts beyond the fanout, is
refuted by `buildFile_roundtrip_cex`: the reader does not descend through
unnamed links.) -/
theorem buildFile_roundtrip (store : Store) (b : Bytes) (k : Nat) (hwf : WFStore store)
    (hk : 0 < k) (hlen : b.length ≤ 174 * k) :
    ∃ s' c sz, buildDAGFromLeaves store (chunk k b) = .ok (s', c, sz) ∧
      getFileData s' c = .ok b := by
  obtain ⟨k, rfl⟩ : ∃ k', k = k' + 1 := ⟨k - 1, by omega⟩
  by_cases hb : b = []
  · subst hb
    rw [chunk_nil]
    unfold buildDAGFromLeaves
    rw [if_pos rfl]
    dsimp only [addNode]
    refine ⟨_, _, _, rfl, ?_⟩
    unfold getFileData
    rw [getNode_ok_iff.mpr (storeFind_put_self store emptyNode)]
    simp [emptyNode]
  · by_cases hone : b.length ≤ k + 1
    · rw [chunk_single b k hb hone]
      unfold buildDAGFromLeaves
      rw [if_neg (by simp)]
      rw [buildLoop_eq]
      rw [if_neg (by simp)]
      dsimp only [addNode]
      refine ⟨_, _, _, rfl, ?_⟩
      unfold getFileData
      rw [getNode_ok_iff.mpr (storeFind_put_self store ⟨b, []⟩)]
      dsimp only
      rw [if_pos ⟨hb, rfl⟩]
    · have hL := chunk_flatten b.length b le_rfl k
      cases hchunk : chunk (k + 1) b with
      | nil =>
        rw [hchunk] at hL
        simp at hL
        exact absurd hL hb
      | cons n0 ns0 =>
        cases ns0 with
        | nil =>
          rw [hchunk] at hL
          simp at hL
          have hmem := chunk_mem b.length b le_rfl k n0 (by rw [hchunk]; simp)
          rw [hL] at hmem
          exact absurd hmem.2.2 hone
        | cons n1 ns1 =>
          rw [← hchunk]
          have h2 : 2 ≤ (chunk (k + 1) b).length := by
            rw [hchunk]; simp
          have hcount : (chunk (k + 1) b).length ≤ 174 := chunk_count 174 b k hlen
          obtain ⟨s', hbd, hwf', hle', hfind, hparent⟩ :=
            buildDAGFromLeaves_small store (chunk (k + 1) b) hwf h2 hcount
          refine ⟨s', _, _, hbd, ?_⟩
          unfold getFileData
          rw [getNode_ok_iff.mpr hparent]
          dsimp only
          rw [if_neg (by simp [groupParent])]
          rw [if_neg (by simp [groupParent, sizedLinks, hchunk])]
          show readChunks s' (sizedLinks (chunk (k + 1) b)) = _
          rw [readChunks_flatten s' (chunk (k + 1) b) hfind
            (fun c hc => ⟨(chunk_mem b.length b le_rfl k c hc).1,
              (chunk_mem b.length b le_rfl k c hc).2.1⟩)]
          rw [chunk_flatten b.length b le_rfl k]

/-- Witness for C1 at `b = [0, 1, 2]`, `k = 2` (two chunks). -/
theorem buildFile_roundtrip_witness :
    WFStore [] ∧ 0 < 2 ∧ ([0, 1, 2] : Bytes).length ≤ 174 * 2 ∧
    ∃ s' c sz, buildDAGFromLeaves [] (chunk 2 [0, 1, 2]) = .ok (s', c, sz) ∧
      getFileData s' c = .ok [0, 1, 2] :=
  ⟨by decide, by decide, by decide,
    buildFile_roundtrip [] [0, 1, 2] 2 (by decide) (by decide) (by decide)⟩

/-- Counterexample to the original C1: 175 one-byte chunks (one more than the
fanout) build successfully into a three-level DAG, but `GetFileData` then
fails — it does not descend through a level of unnamed links to inner nodes,
so the round-trip read returns an error rather than the original bytes. -/
theorem buildFile_roundtrip_cex :
    ∃ s' c sz,
      buildDAGFromLeaves [] (chunk 1 (List.replicate 175 (0 : Byte))) = .ok (s', c, sz) ∧
      getFileData s' c
        = .error (.msg ("linked node is not a data chunk (unexpected structure)")) := by
  have hwf0 : WFStore ([] : Store) := by intro p hp; simp at hp
  rw [chunk_replicate]
  generalize hL : List.replicate 175 (⟨[(0 : Byte)], []⟩ : Node) = L
  have hlen : L.length = 175 := by rw [← hL]; simp
  obtain ⟨x, xs, rfl⟩ : ∃ x xs, L = x :: xs := by
    cases L with
    | nil => simp at hlen
    | cons x xs => exact ⟨x, xs, rfl⟩
  have hlen' : xs.length = 174 := by simpa using hlen
  unfold buildDAGFromLeaves
  rw [if_neg (by simp : ¬(x :: xs = []))]
  rw [buildLoop_eq]
  rw [if_pos (by simp [hlen'] : 1 < (x :: xs).length)]
  rw [buildGroups_cons]
  obtain ⟨s1, hpg1, hwf1, hle1, hfind1, hpar1⟩ :=
    processGroup_spec [] ((x :: xs).take 174) hwf0
  rw [hpg1]
  simp only [exceptBind_ok]
  obtain ⟨y, hy⟩ : ∃ y, (x :: xs).drop 174 = [y] := by
    have hdl : ((x :: xs).drop 174).length = 1 := by
      simp only [List.length_drop, List.length_cons, hlen']
    cases hdrop : (x :: xs).drop 174 with
    | nil => rw [hdrop] at hdl; simp at hdl
    | cons y ys =>
      rw [hdrop] at hdl
      simp only [List.length_cons] at hdl
      have hys : ys = [] := List.eq_nil_of_length_eq_zero (by omega)
      subst hys
      exact ⟨y, rfl⟩
  rw [hy, buildGroups_cons]
  obtain ⟨s2, hpg2, hwf2, hle2, hfind2, hpar2⟩ := processGroup_spec s1 [y] hwf1
  rw [show ([y] : List Node).take 174 = [y] from rfl,
    show ([y] : List Node).drop 174 = ([] : List Node) from rfl, hpg2]
  simp only [exceptBind_ok]
  rw [buildGroups_nil]
  simp only [exceptBind_ok]
  set P1 := groupParent ((x :: xs).take 174) with hP1
  set P2 := groupParent [y] with hP2
  rw [buildLoop_eq]
  rw [if_pos (by simp : 1 < ([P1, P2] : List Node).length)]
  obtain ⟨s3, hbg3, hwf3, hle3, hfind3, hpar3⟩ :=
    buildGroups_small s2 [P1, P2] hwf2 (by simp) (by simp)
  rw [hbg3]
  dsimp only
  rw [buildLoop_eq]
  rw [if_neg (by simp)]
  dsimp only [addNode]
  set Q := groupParent [P1, P2] with hQ
  refine ⟨_, _, _, rfl, ?_⟩
  have hwf4 : WFStore (storePut s3 (nodeCid Q) Q) := WFStore_put hwf3 Q
  have hle4 : StoreLe s3 (storePut s3 (nodeCid Q) Q) := StoreLe.put hwf3 Q
  have hfQ : storeFind (storePut s3 (nodeCid Q) Q) (nodeCid Q) = some Q :=
    storeFind_put_self _ _
  have hfP1 : storeFind (storePut s3 (nodeCid Q) Q) (nodeCid P1) = some P1 :=
    hle4 _ _ (hfind3 P1 (by simp))
  unfold getFileData
  rw [getNode_ok_iff.mpr hfQ]
  dsimp only
  rw [if_neg (by simp [hQ, groupParent])]
  rw [if_neg (by simp [hQ, groupParent, sizedLinks])]
  have hQl : Q.links
      = (⟨"", nodeCid P1, calculateNodeSize P1⟩ : Link)
        :: [⟨"", nodeCid P2, calculateNodeSize P2⟩] := rfl
  rw [hQl, readChunks]
  rw [getNode_ok_iff.mpr hfP1]
  dsimp only
  rw [if_pos (Or.inl (show P1.data = [] by rw [hP1]; rfl))]
  rw [if_neg (by simp)]
/-- C2 (amended): for every well-formed store, root CID `r`, path all of
whose components are non-empty, target CID `t` and size `sz`: when
`PutNodeAtPath` succeeds, resolving the same path against the new root yields
exactly `t`.  (The original claim asked only for at least one non-empty
component; `putNodeAtPath_resolvePath_cex` refutes that version, because the
mutator records empty-named links that the resolver skips.) -/
theorem putNodeAtPath_resolvePath (s : Store) (r path t : String) (sz : Nat)
    (s' : Store) (r' : String) (hwf : WFStore s)
    (hne : ∀ c ∈ splitPath path, c ≠ "")
    (h : putNodeAtPath s r path t sz = .ok (s', r')) :
    resolvePath s' r' path = .ok t := by
  obtain ⟨hp, hc, hu⟩ := putNodeAtPath_ok_elim h
  rw [resolvePath_of_ne_nil hc]
  have hsplit := dropLast_append_getLastBang _ hc
  have hres := updateDir_resolve (splitPath path).dropLast s r
    (splitPath path).getLast! t sz s' r' hwf
    (fun p hp' => hne p (by rw [← hsplit]; exact List.mem_append_left _ hp'))
    (hne (splitPath path).getLast! (by
      have hmem := List.mem_append_right (splitPath path).dropLast
        (List.mem_singleton_self (splitPath path).getLast!)
      rw [hsplit] at hmem
      exact hmem))
    hu
  rw [hsplit] at hres
  exact hres

/-- Witness for C2: put `T` at `/a/b` under an empty-directory root and
resolve it back. -/
theorem putNodeAtPath_resolvePath_witness :
    WFStore emptyRootStore ∧ (∀ c ∈ splitPath ("/a/b"), c ≠ "") ∧
    ∃ s' r', putNodeAtPath emptyRootStore (nodeCid emptyNode) ("/a/b") ("T") 1
        = .ok (s', r') ∧
      resolvePath s' r' ("/a/b") = .ok ("T") := by
  refine ⟨by decide, by decide, ?_⟩
  have hok : (putNodeAtPath emptyRootStore (nodeCid emptyNode) ("/a/b") ("T") 1).isOk
      = true := by decide
  cases hput : putNodeAtPath emptyRootStore (nodeCid emptyNode) ("/a/b") ("T") 1 with
  | ok p =>
    obtain ⟨s', r'⟩ := p
    exact ⟨s', r', rfl,
      putNodeAtPath_resolvePath emptyRootStore (nodeCid emptyNode) ("/a/b") ("T") 1 s' r'
        (by decide) (by decide) hput⟩
  | error e =>
    rw [hput] at hok
    simp [Except.isOk, Except.toBool] at hok

/-- Counterexample to the original C2: the path `/a//b` has non-empty
components `a` and `b` (plus an empty one), the put succeeds, yet resolving
the same path against the new root does not return the stored target: the
mutator creates a level for the empty component that the resolver skips. -/
theorem putNodeAtPath_resolvePath_cex :
    splitPath ("/a//b") = ["a", "", "b"] ∧
    (putNodeAtPath emptyRootStore (nodeCid emptyNode) ("/a//b") ("T") 1).isOk = true ∧
    putThenResolveAt emptyRootStore (nodeCid emptyNode) ("/a//b") ("T") 1 ("/a//b")
      ≠ .ok ("T") := by decide

/-- C4 is a code bug, witnessed in Lean by this evaluation: `PutNodeAtPath`
on a root CID absent from the store fails instead of treating the missing
node as an empty directory.  `BadgerStore.Get` replaces
`badger.ErrKeyNotFound` by a fresh `errors.New("block not found")`, so the
`errors.Is(err, badger.ErrKeyNotFound)` guard in `updateDirRecursive` never
matches the store's actual miss error (second conjunct). -/
theorem putNodeAtPath_absentRoot :
    putNodeAtPath [] ("deadbeef") ("/a") ("T") 1
      = .error (.wrap ("failed to update DAG path")
          (.wrap ("failed to get parent directory node")
            (.wrap ("failed to get node from store") (.msg ("block not found"))))) ∧
    errorsIs (.wrap ("failed to get node from store") (.msg ("block not found")))
      .badgerKeyNotFound = false := by decide

/-- Witness for C5 (`putNodeAtPath_frame_core`): putting at `/x/f` preserves
the resolution of the disjoint path `/y`. -/
theorem putNodeAtPath_frame_core_witness :
    WFStore frameDemoStore ∧ (∀ c ∈ splitPath ("/y"), c ≠ "") ∧
    splitPath ("/y") ≠ [] ∧
    (splitPath ("/y")).head? ≠ (splitPath ("/x/f")).head? ∧
    resolvePath frameDemoStore (nodeCid frameDemoA) ("/y") = .ok ("K") ∧
    ∃ s' r', putNodeAtPath frameDemoStore (nodeCid frameDemoA) ("/x/f") ("T2") 3
        = .ok (s', r') ∧
      resolvePath s' r' ("/y") = .ok ("K") := by
  refine ⟨by decide, by decide, by decide, by decide, by decide, ?_⟩
  have hok : (putNodeAtPath frameDemoStore (nodeCid frameDemoA) ("/x/f") ("T2") 3).isOk
      = true := by decide
  cases hput : putNodeAtPath frameDemoStore (nodeCid frameDemoA) ("/x/f") ("T2") 3 with
  | ok p =>
    obtain ⟨s', r'⟩ := p
    exact ⟨s', r', rfl,
      (putNodeAtPath_frame_core frameDemoStore (nodeCid frameDemoA) ("/x/f") ("T2") 3
        s' r' ("/y") (by decide) hput (by decide) (by decide) (by decide)).1
        ("K") (by decide)⟩
  | error e =>
    rw [hput] at hok
    simp [Except.isOk, Except.toBool] at hok

/-- Counterexample to the original C5: the paths `//x/f` and `/x/f` have
different first components (`""` versus `"x"`), yet putting at `/x/f` changes
what `//x/f` resolves to (from `FT` to `T2`): the resolver skips the empty
component, so the two paths denote the same spine. -/
theorem putNodeAtPath_frame_core_cex :
    (splitPath ("//x/f")).head? ≠ (splitPath ("/x/f")).head? ∧
    resolvePath frameDemoStore (nodeCid frameDemoA) ("//x/f") = .ok ("FT") ∧
    (putNodeAtPath frameDemoStore (nodeCid frameDemoA) ("/x/f") ("T2") 3).isOk = true ∧
    putThenResolveAt frameDemoStore (nodeCid frameDemoA) ("/x/f") ("T2") 3 ("//x/f")
      = .ok ("T2") := by decide

/-- C6: `PutNodeAtPath` is idempotent on the root CID: re-running the same
put against the root produced by a first successful put succeeds and returns
the same root CID again. -/
theorem putNodeAtPath_idem (s : Store) (r path t : String) (sz : Nat) (s1 : Store)
    (r1 : String) (hwf : WFStore s)
    (h : putNodeAtPath s r path t sz = .ok (s1, r1)) :
    ∃ s2, putNodeAtPath s1 r1 path t sz = .ok (s2, r1) := by
  obtain ⟨hp, hc, hu⟩ := putNodeAtPath_ok_elim h
  obtain ⟨hwf1, _⟩ := updateDir_wf_mono (splitPath path).dropLast s r
    (splitPath path).getLast! t sz s1 r1 hwf hu
  obtain ⟨s2, hrerun⟩ := updateDir_rerun (splitPath path).dropLast s r
    (splitPath path).getLast! t sz s1 r1 hwf hu s1 hwf1 StoreLe.rfl
  exact ⟨s2, putNodeAtPath_ok_build hp hc hrerun⟩

/-- Witness for C6: a double put of `T` at `/x/y` returns the same root CID
both times. -/
theorem putNodeAtPath_idem_witness :
    WFStore emptyRootStore ∧
    ∃ s1 r1 s2, putNodeAtPath emptyRootStore (nodeCid emptyNode) ("/x/y") ("T") 1
        = .ok (s1, r1) ∧
      putNodeAtPath s1 r1 ("/x/y") ("T") 1 = .ok (s2, r1) := by
  refine ⟨by decide, ?_⟩
  have hok : (putNodeAtPath emptyRootStore (nodeCid emptyNode) ("/x/y") ("T") 1).isOk
      = true := by decide
  cases hput : putNodeAtPath emptyRootStore (nodeCid emptyNode) ("/x/y") ("T") 1 with
  | ok p =>
    obtain ⟨s1, r1⟩ := p
    obtain ⟨s2, h2⟩ := putNodeAtPath_idem emptyRootStore (nodeCid emptyNode) ("/x/y")
      ("T") 1 s1 r1 (by decide) hput
    exact ⟨s1, r1, s2, rfl, h2⟩
  | error e =>
    rw [hput] at hok
    simp [Except.isOk, Except.toBool] at hok

/-- C3 is a code bug, witnessed in Lean by this evaluation:
`BuildDirectoryDAG` iterates a Go map (`for name, item := range items`),
whose iteration order is randomised between runs; two enumeration orders of
the same logical collection `{a ↦ (x,1), b ↦ (y,2)}` yield directory nodes
with different link orders and hence different CIDs. -/
theorem buildDirectoryDAG_order_dependent :
    dirCid [("a", "x", 1), ("b", "y", 2)] ≠ dirCid [("b", "y", 2), ("a", "x", 1)] := by
  decide

/-- C7: the node codec round-trips.  Deserializing a serialized node gives
the node back, and on the image of the serializer (every byte string some
node marshals to) serializing the deserialization reproduces the bytes
byte-for-byte — serialization is deterministic and canonical. -/
theorem nodeCodec_roundTrip :
    (∀ n : Node, unmarshalNode (marshalNode n) = some n) ∧
    (∀ b : List Char, (∃ n : Node, marshalNode n = b) →
      ∃ m : Node, unmarshalNode b = some m ∧ marshalNode m = b) := by
  refine ⟨unmarshalNode_marshalNode, ?_⟩
  rintro b ⟨n, rfl⟩
  exact ⟨n, unmarshalNode_marshalNode n, rfl⟩

/-- Witness for C7: a node with data and a link, and the serialized empty
node, round-trip concretely. -/
theorem nodeCodec_roundTrip_witness :
    unmarshalNode (marshalNode ⟨[104, 105], [⟨"a", "h1", 2⟩]⟩)
      = some ⟨[104, 105], [⟨"a", "h1", 2⟩]⟩ ∧
    ∃ m : Node, unmarshalNode (marshalNode ⟨[], []⟩) = some m ∧
      marshalNode m = marshalNode ⟨[], []⟩ :=
  ⟨nodeCodec_roundTrip.1 ⟨[104, 105], [⟨"a", "h1", 2⟩]⟩,
    nodeCodec_roundTrip.2 (marshalNode ⟨[], []⟩) ⟨⟨[], []⟩, rfl⟩⟩

/-- C8 (amended): the builders maintain the per-node link-size invariant
`LinkSized` — every link of a stored node records the recomputed cumulative
size (`CalculateNodeSize`) of the stored child it points to — in the
following per-builder sense.
(a) `BuildDAGFromLeaves`: every binding the build adds to the store either
has all link sizes zero (the intermediate placeholder parents, which refute
the original unconditional claim, see `builders_linkSized_cex`) or satisfies
the invariant; moreover the subtree of the returned root satisfies it
recursively.
(b) `BuildDirectoryDAG` copies the caller-supplied `(cid, size)` pairs into
the directory node verbatim, so when every item records the recomputed size
of its stored target, every binding it adds satisfies the invariant.
(c) `updateDirRecursive` (via `PutNodeAtPath`): when every stored node is
correctly sized and the put target is stored with `sz` equal to its
recomputed size, the whole result store — in particular every spine node the
update writes — is still correctly sized. -/
theorem builders_linkSized (s : Store) (hwf : WFStore s) :
    (∀ leaves s' c sz, (∀ lf ∈ leaves, lf.links = []) →
      buildDAGFromLeaves s leaves = .ok (s', c, sz) →
      (∀ p ∈ s', p ∈ s ∨ (∀ l ∈ p.2.links, l.size = 0) ∨ LinkSized s' p.2) ∧
      ∃ root, storeFind s' c = some root ∧ SubtreeSized s' root) ∧
    (∀ items s' c sz,
      (∀ it ∈ items, ∃ tn, storeFind s it.2.1 = some tn ∧ it.2.2 = calculateNodeSize tn) →
      buildDirectoryDAG s (items : List (String × String × Nat)) = .ok (s', c, sz) →
      ∀ p ∈ s', p ∈ s ∨ LinkSized s' p.2) ∧
    (∀ r path t sz s' r', StoreSized s →
      (∃ tn, storeFind s t = some tn ∧ sz = calculateNodeSize tn) →
      putNodeAtPath s r path t sz = .ok (s', r') →
      StoreSized s') := by
  refine ⟨?_, ?_, ?_⟩
  · intro leaves s' c sz hleaf h
    exact ⟨buildDAG_mem s leaves hwf hleaf s' c sz h,
      buildDAG_root_sized s leaves hwf hleaf s' c sz h⟩
  · intro items s' c sz hitems h
    unfold buildDirectoryDAG at h
    dsimp only [addNode] at h
    cases h
    intro p hp
    rcases List.mem_cons.mp hp with hp1 | hp2
    · subst hp1
      refine Or.inr ?_
      intro l hl
      dsimp only at hl
      obtain ⟨it, hit, rfl⟩ := List.mem_map.mp hl
      obtain ⟨tn, htn, hsz⟩ := hitems it hit
      refine linkSizedB_iff.mpr ⟨tn, ?_, hsz⟩
      exact StoreLe.put hwf _ _ _ htn
    · exact Or.inl hp2
  · intro r path t sz s' r' hss htgt h
    obtain ⟨-, -, hu⟩ := putNodeAtPath_ok_elim h
    exact updateDir_sized (splitPath path).dropLast s r (splitPath path).getLast!
      t sz s' r' hwf hss htgt hu

/-- Witness for C8: the three parts at concrete inputs — a two-leaf build, a
one-item directory whose item records the stored target's recomputed size,
and a put of a stored, correctly sized target. -/
theorem builders_linkSized_witness :
    WFStore emptyRootStore ∧
    (∃ s' c sz, buildDAGFromLeaves emptyRootStore [⟨[1], []⟩, ⟨[2], []⟩] = .ok (s', c, sz) ∧
      (∀ p ∈ s', p ∈ emptyRootStore ∨ (∀ l ∈ p.2.links, l.size = 0) ∨ LinkSized s' p.2) ∧
      ∃ root, storeFind s' c = some root ∧ SubtreeSized s' root) ∧
    (∃ s' c sz, buildDirectoryDAG emptyRootStore [("a", nodeCid emptyNode, 0)]
        = .ok (s', c, sz) ∧
      ∀ p ∈ s', p ∈ emptyRootStore ∨ LinkSized s' p.2) ∧
    (∃ s' r', putNodeAtPath emptyRootStore (nodeCid emptyNode) ("/a") (nodeCid emptyNode) 0
        = .ok (s', r') ∧ StoreSized s') := by
  refine ⟨by decide, ?_, ?_, ?_⟩
  · have hok : (buildDAGFromLeaves emptyRootStore [⟨[1], []⟩, ⟨[2], []⟩]).isOk = true := by
      decide
    cases hb : buildDAGFromLeaves emptyRootStore [⟨[1], []⟩, ⟨[2], []⟩] with
    | ok p =>
      obtain ⟨s', c, sz⟩ := p
      exact ⟨s', c, sz, rfl,
        (builders_linkSized emptyRootStore (by decide)).1 [⟨[1], []⟩, ⟨[2], []⟩] s' c sz
          (by decide) hb⟩
    | error e =>
      rw [hb] at hok
      simp [Except.isOk, Except.toBool] at hok
  · cases hb : buildDirectoryDAG emptyRootStore [("a", nodeCid emptyNode, 0)] with
    | ok p =>
      obtain ⟨s', c, sz⟩ := p
      refine ⟨s', c, sz, rfl,
        (builders_linkSized emptyRootStore (by decide)).2.1 [("a", nodeCid emptyNode, 0)]
          s' c sz ?_ hb⟩
      intro it hit
      rcases List.mem_singleton.mp hit with rfl
      exact ⟨emptyNode, by decide, by decide⟩
    | error e =>
      have hok : (buildDirectoryDAG emptyRootStore [("a", nodeCid emptyNode, 0)]).isOk
          = true := by decide
      rw [hb] at hok
      simp [Except.isOk, Except.toBool] at hok
  · have hok : (putNodeAtPath emptyRootStore (nodeCid emptyNode) ("/a")
        (nodeCid emptyNode) 0).isOk = true := by decide
    cases hb : putNodeAtPath emptyRootStore (nodeCid emptyNode) ("/a")
        (nodeCid emptyNode) 0 with
    | ok p =>
      obtain ⟨s', r'⟩ := p
      exact ⟨s', r', rfl,
        (builders_linkSized emptyRootStore (by decide)).2.2 (nodeCid emptyNode) ("/a")
          (nodeCid emptyNode) 0 s' r' (by decide)
          ⟨emptyNode, by decide, by decide⟩ hb⟩
    | error e =>
      rw [hb] at hok
      simp [Except.isOk, Except.toBool] at hok

/-- Counterexample to the original C8 (every node the builders write has
recomputed link sizes), in all three builders.
(a) After a two-leaf file build, the placeholder parent written before the
size fix-up is still stored under its own CID with link sizes 0, while the
recomputed size of the linked leaf is 1.
(b) `BuildDirectoryDAG` writes a directory node recording the caller's size
7 for a stored target whose recomputed size is 0.
(c) `PutNodeAtPath` writes a parent whose leaf link records the caller's
`targetSize` 7 for a stored target whose recomputed size is 0. -/
theorem builders_linkSized_cex :
    ((buildDAGFromLeaves [] [⟨[1], []⟩, ⟨[2], []⟩]).isOk = true ∧
      storeFind (buildStore [] [⟨[1], []⟩, ⟨[2], []⟩])
          (nodeCid ⟨[], [⟨"", nodeCid ⟨[1], []⟩, 0⟩, ⟨"", nodeCid ⟨[2], []⟩, 0⟩]⟩)
        = some ⟨[], [⟨"", nodeCid ⟨[1], []⟩, 0⟩, ⟨"", nodeCid ⟨[2], []⟩, 0⟩]⟩ ∧
      storeFind (buildStore [] [⟨[1], []⟩, ⟨[2], []⟩]) (nodeCid ⟨[1], []⟩)
        = some ⟨[1], []⟩ ∧
      (0 : Nat) ≠ calculateNodeSize ⟨[1], []⟩) ∧
    (buildDirectoryDAG emptyRootStore [("a", nodeCid emptyNode, 7)]
        = .ok (storePut emptyRootStore
            (nodeCid ⟨[], [⟨"a", nodeCid emptyNode, 7⟩]⟩)
            ⟨[], [⟨"a", nodeCid emptyNode, 7⟩]⟩,
          nodeCid ⟨[], [⟨"a", nodeCid emptyNode, 7⟩]⟩, 7) ∧
      storeFind emptyRootStore (nodeCid emptyNode) = some emptyNode ∧
      (7 : Nat) ≠ calculateNodeSize emptyNode) ∧
    ((putNodeAtPath emptyRootStore (nodeCid emptyNode) ("/a") (nodeCid emptyNode) 7).isOk
        = true ∧
      storeFind (putStore emptyRootStore (nodeCid emptyNode) ("/a") (nodeCid emptyNode) 7)
          (putRoot emptyRootStore (nodeCid emptyNode) ("/a") (nodeCid emptyNode) 7)
        = some ⟨[], [⟨"a", nodeCid emptyNode, 7⟩]⟩ ∧
      storeFind (putStore emptyRootStore (nodeCid emptyNode) ("/a") (nodeCid emptyNode) 7)
          (nodeCid emptyNode) = some emptyNode ∧
      (7 : Nat) ≠ calculateNodeSize emptyNode) := by
  refine ⟨⟨by decide, by decide, by decide, by decide⟩,
    ⟨by decide, by decide, by decide⟩,
    ⟨by decide, by decide, by decide, by decide⟩⟩

/-- C9: for an input of at most the chunk size (a single leaf), the builder
returns the leaf's own CID and the data length as the size, and stores
exactly the leaf itself — no single-link parent above it. -/
theorem buildFile_singleLeaf (store : Store) (b : Bytes) (k : Nat)
    (hpos : b ≠ []) (hle : b.length ≤ k + 1) :
    buildDAGFromLeaves store (chunk (k + 1) b)
      = .ok (storePut store (nodeCid ⟨b, []⟩) ⟨b, []⟩, nodeCid ⟨b, []⟩, b.length) := by
  rw [chunk_single b k hpos hle]
  unfold buildDAGFromLeaves
  rw [if_neg (by simp)]
  rw [buildLoop_eq]
  rw [if_neg (by simp)]
  dsimp only [addNode]
  have hsz : calculateNodeSize ⟨b, []⟩ = b.length := by
    unfold calculateNodeSize
    rw [if_pos]
    exact List.length_pos.mpr hpos
  rw [hsz]

/-- Witness for C9 at a two-byte input with chunk size 5. -/
theorem buildFile_singleLeaf_witness :
    ([104, 105] : Bytes) ≠ [] ∧ ([104, 105] : Bytes).length ≤ 4 + 1 ∧
    buildDAGFromLeaves [] (chunk (4 + 1) [104, 105])
      = .ok (storePut [] (nodeCid ⟨[104, 105], []⟩) ⟨[104, 105], []⟩,
          nodeCid ⟨[104, 105], []⟩, ([104, 105] : Bytes).length) :=
  ⟨by decide, by decide, buildFile_singleLeaf [] [104, 105] 4 (by decide) (by decide)⟩

/-- C10: `ListDirectory` classifies by inspecting only the first link: a node
with links whose first link is named lists all its links (even when later
links are unnamed); the empty node lists `[]`; a link-free node with data and
a linked node with an unnamed first link fail as not-a-directory. -/
theorem listDirectory_spec (s : Store) (cid : String) (n : Node)
    (h : getNode s cid = .ok n) :
    (n.links ≠ [] ∧ (n.links.headD ⟨"", "", 0⟩).name ≠ "" →
      listDirectory s cid = .ok n.links) ∧
    (n.links = [] ∧ n.data = [] → listDirectory s cid = .ok []) ∧
    (n.links = [] ∧ n.data ≠ [] →
      listDirectory s cid = .error (.msg ("node is not a directory node"))) ∧
    (n.links ≠ [] ∧ (n.links.headD ⟨"", "", 0⟩).name = "" →
      listDirectory s cid = .error (.msg ("node is not a directory node"))) := by
  unfold listDirectory
  rw [h]
  dsimp only
  refine ⟨?_, ?_, ?_, ?_⟩
  · intro hcond
    rw [if_pos hcond]
  · intro hcond
    rw [if_neg (fun hc => hc.1 hcond.1), if_pos hcond]
  · intro hcond
    rw [if_neg (fun hc => hc.1 hcond.1), if_neg (fun hc => hcond.2 hc.2)]
  · intro hcond
    rw [if_neg (fun hc => hc.2 hcond.2), if_neg (fun hc => hcond.1 hc.1)]

/-- Witness for C10: the demo directory (named first link, a second named
link) lists its full link list; a mixed node with a named first link and an
unnamed second link is also listed. -/
theorem listDirectory_spec_witness :
    getNode frameDemoStore (nodeCid frameDemoA) = .ok frameDemoA ∧
    listDirectory frameDemoStore (nodeCid frameDemoA) = .ok frameDemoA.links :=
  ⟨by decide,
    (listDirectory_spec frameDemoStore (nodeCid frameDemoA) frameDemoA (by decide)).1
      (by decide)⟩

end IpfsGin
